import Mathlib

/-!
Verification development for the gpu-array library (src/gpu-array.js and
src/shader.js).  The definitions below are shallow embeddings of the
JavaScript functions and of the WGSL kernels produced by the shader
templates; machine `u32` arithmetic is modelled by natural numbers with an
explicit `% 2 ^ 32` wherever the kernels can wrap, index arithmetic of the
strided kernels is modelled over `Nat` (all participating quantities are
far below `2 ^ 32` for any realizable buffer, so `u32` arithmetic is exact
there), element values of arrays are modelled as mathematical integers,
and JavaScript exceptions are modelled with `Except`/`Option` results.
-/

set_option maxHeartbeats 1000000
set_option maxRecDepth 8192

namespace GpuArray

/-! ### Element types and promotion (src/gpu-array.js, promoteType) -/

/-- Element types supported by the library (the `DType` typedef). -/
inductive DType where
  | i32
  | u32
  | f16
  | f32
deriving DecidableEq, Repr

/-- Shallow embedding of `promoteType` (src/gpu-array.js lines 88-106).
`none` stands for JavaScript `undefined` (the dtype of a scalar operand);
`Except.error ()` models the thrown `Incompatible Types` error. -/
def promoteType (t1 t2 : Option DType) : Except Unit DType :=
  if t1 = t2 then
    .ok (t1.getD .f32)
  else if t1 = some .f32 ∨ t2 = some .f32 then
    .ok .f32
  else if t1 = some .f16 ∨ t2 = some .f16 then
    .ok .f16
  else if t1.isSome ∧ t2.isSome then
    .error ()
  else
    .ok (t1.getD (t2.getD .f32))

/-! ### Strides (src/gpu-array.js, NDArray constructor) -/

/-- Dot product of an index list with a stride list (the flat-offset
computation used by `NDArray.#calcIndex` and by the strided kernels). -/
def dot (xs ys : List Nat) : Nat :=
  (List.zipWith (fun a b => a * b) xs ys).sum

/-- Contiguous (row-major) strides of a shape: the stride of axis `j` is
the product of all later extents.  This is the closed form of the
`reduce` in the NDArray constructor; see `jsStrides` for the literal fold
and the lemma `jsStrides_eq_contStrides`. -/
def contStrides : List Nat → List Nat
  | [] => []
  | _ :: ds => ds.prod :: contStrides ds

/-- Literal embedding of the stride-deriving fold of the NDArray
constructor (src/gpu-array.js lines 929-933):
`shape.reduce((a, si) => { a = a.map(ai => ai * si); a.push(1); return a; }, [])`. -/
def jsStrides (shape : List Nat) : List Nat :=
  shape.foldl (fun a si => a.map (fun ai => ai * si) ++ [1]) []

/-- The multi-index of output linear index `x` for an output of shape `ds`
with contiguous strides: entry `j` is `x / strides[j] % ds[j]` (the
mixed-radix decomposition of `x` over the output strides). -/
def multiIndex (ds : List Nat) (x : Nat) : List Nat :=
  (List.range ds.length).map (fun j => x / (contStrides ds).getD j 0 % ds.getD j 0)

/-! ### The strided ("indirect") kernels (src/shader.js)

Each kernel computes, for output linear index `id.x`, one source offset
per bound array operand via a loop over the per-axis stride buffers.
`vecLoop`/`vector_op_indirect_idx` embed the loop of `vector_op_indirect`
(src/shader.js lines 488-507, the `O -= iN` variant); `func2Loop`/
`func2_indirect_idx` embed `func2_indirect` (lines 566-585, the `O -= i`
variant); `whereLoop`/`where_indirect_idx` embed `where_indirect`
(lines 822-848, also `O -= i`, with three read operands).
The Lean loop counter equals the WGSL loop variable `s`, counting down
from `arrayLength(&out_strides) - 1` to `1`; the epilogue after the loop
handles axis `0`. -/

/-- Loop of the `vector_op_indirect` kernel.  State is `(O, L, R)`. -/
def vecLoop (ostr ls rs : List Nat) : Nat → Nat × Nat × Nat → Nat × Nat × Nat
  | 0, st => st
  | t + 1, (O, L, R) =>
    let iN := O % ostr.getD t 0
    let i := iN / ostr.getD (t + 1) 0
    vecLoop ostr ls rs t
      (O - iN, L + i * ls.getD (t + 1) 0, R + i * rs.getD (t + 1) 0)

/-- Source offsets `(L, R)` computed by `vector_op_indirect` for output
linear index `x`. -/
def vector_op_indirect_idx (ostr ls rs : List Nat) (x : Nat) : Nat × Nat :=
  let st := vecLoop ostr ls rs (ostr.length - 1) (x, 0, 0)
  let i := st.1 / ostr.getD 0 0
  (st.2.1 + i * ls.getD 0 0, st.2.2 + i * rs.getD 0 0)

/-- Loop of the `func2_indirect` kernel (`O -= i` instead of `O -= iN`).
State is `(O, I0, I1)`. -/
def func2Loop (ostr s0 s1 : List Nat) : Nat → Nat × Nat × Nat → Nat × Nat × Nat
  | 0, st => st
  | t + 1, (O, I0, I1) =>
    let iN := O % ostr.getD t 0
    let i := iN / ostr.getD (t + 1) 0
    func2Loop ostr s0 s1 t
      (O - i, I0 + i * s0.getD (t + 1) 0, I1 + i * s1.getD (t + 1) 0)

/-- Source offsets `(I0, I1)` computed by `func2_indirect` for output
linear index `x`. -/
def func2_indirect_idx (ostr s0 s1 : List Nat) (x : Nat) : Nat × Nat :=
  let st := func2Loop ostr s0 s1 (ostr.length - 1) (x, 0, 0)
  let i := st.1 / ostr.getD 0 0
  (st.2.1 + i * s0.getD 0 0, st.2.2 + i * s1.getD 0 0)

/-- Loop of the `where_indirect` kernel.  State is `(O, C, T, F)`. -/
def whereLoop (ostr cs ts fs : List Nat) :
    Nat → Nat × Nat × Nat × Nat → Nat × Nat × Nat × Nat
  | 0, st => st
  | t + 1, (O, C, T, F) =>
    let iN := O % ostr.getD t 0
    let i := iN / ostr.getD (t + 1) 0
    whereLoop ostr cs ts fs t
      (O - i, C + i * cs.getD (t + 1) 0, T + i * ts.getD (t + 1) 0,
       F + i * fs.getD (t + 1) 0)

/-- Source offsets `(C, T, F)` computed by `where_indirect` for output
linear index `x`. -/
def where_indirect_idx (ostr cs ts fs : List Nat) (x : Nat) : Nat × Nat × Nat :=
  let st := whereLoop ostr cs ts fs (ostr.length - 1) (x, 0, 0, 0)
  let i := st.1 / ostr.getD 0 0
  (st.2.1 + i * cs.getD 0 0, st.2.2.1 + i * ts.getD 0 0,
   st.2.2.2 + i * fs.getD 0 0)

/-- Single-operand projection of the `O -= iN` loop (used to reason about
all operands of `vecLoop` uniformly).  State is `(O, L)`. -/
def idxLoopA (ostr astr : List Nat) : Nat → Nat × Nat → Nat × Nat
  | 0, st => st
  | t + 1, (O, L) =>
    let iN := O % ostr.getD t 0
    let i := iN / ostr.getD (t + 1) 0
    idxLoopA ostr astr t (O - iN, L + i * astr.getD (t + 1) 0)

/-- Single-operand projection of the `O -= i` loop (used for `func2Loop`
and `whereLoop`). -/
def idxLoopB (ostr astr : List Nat) : Nat → Nat × Nat → Nat × Nat
  | 0, st => st
  | t + 1, (O, L) =>
    let iN := O % ostr.getD t 0
    let i := iN / ostr.getD (t + 1) 0
    idxLoopB ostr astr t (O - i, L + i * astr.getD (t + 1) 0)

/-- Full single-operand offset of the `O -= iN` kernel variant. -/
def offA (ostr astr : List Nat) (x : Nat) : Nat :=
  let st := idxLoopA ostr astr (ostr.length - 1) (x, 0)
  st.2 + st.1 / ostr.getD 0 0 * astr.getD 0 0

/-- Full single-operand offset of the `O -= i` kernel variant. -/
def offB (ostr astr : List Nat) (x : Nat) : Nat :=
  let st := idxLoopB ostr astr (ostr.length - 1) (x, 0)
  st.2 + st.1 / ostr.getD 0 0 * astr.getD 0 0

/-! Auxiliary quantities for the loop-invariant proofs about the strided
kernels.  `mIdx ds x j` is the `j`-th digit of the mixed-radix
decomposition of `x`; `SA`/`LAcc`/`RB` are the partial sums describing the
loop state after the axes above `c` have been processed. -/

/-- Digit `j` of the decomposition of `x` over the contiguous strides of
shape `ds`. -/
def mIdx (ds : List Nat) (x j : Nat) : Nat :=
  x / (contStrides ds).getD j 0 % ds.getD j 0

/-- Offset part of the loop state: contributions of axes `0..c` to the
remaining linear offset. -/
def SA (ds : List Nat) (x c : Nat) : Nat :=
  ∑ j ∈ Finset.range (c + 1), mIdx ds x j * (contStrides ds).getD j 0

/-- Accumulated operand offset of the loop state: contributions of the
already-processed axes `c+1..r-1`. -/
def LAcc (ds astr : List Nat) (x c : Nat) : Nat :=
  ∑ j ∈ Finset.Ico (c + 1) ds.length, mIdx ds x j * astr.getD j 0

/-- Residue left in `O` by the `O -= i` kernels for the processed axes. -/
def RB (ds : List Nat) (x c : Nat) : Nat :=
  ∑ j ∈ Finset.Ico (c + 1) ds.length, mIdx ds x j * ((contStrides ds).getD j 0 - 1)

/-! ### Shape broadcasting (src/gpu-array.js, broadcastShapes) -/

/-- Per-axis combination rule of `broadcastShapes` (the body of the inner
`reduce`): keep the accumulator when it equals the incoming extent or the
incoming extent is 1, take the incoming extent when the accumulator is 1,
otherwise throw `Incompatible Shape`. -/
def bAxis (a si : Nat) : Except Unit Nat :=
  if a = si ∨ si = 1 then .ok a
  else if a = 1 then .ok si
  else .error ()

/-- Right-aligned recursion computing `broadcastShapes` on reversed
shapes: the source aligns axes from the trailing end (`i < length -
s.length` axes are skipped, i.e. implicitly extent 1), which on reversed
lists is plain structural pairing.  The accumulator starts at 1, so a
present axis of the first shape contributes `bAxis 1 x` and then the
second shape contributes `bAxis _ y`, exactly as the source fold. -/
def bcastRev : List Nat → List Nat → Except Unit (List Nat)
  | [], ys => .ok ys
  | x :: xs, [] => .ok (x :: xs)
  | x :: xs, y :: ys =>
    match bAxis 1 x with
    | .error e => .error e
    | .ok a1 =>
      match bAxis a1 y with
      | .error e => .error e
      | .ok a2 =>
        match bcastRev xs ys with
        | .error e => .error e
        | .ok r => .ok (a2 :: r)

/-- `broadcastShapes` for two shapes (src/gpu-array.js lines 113-132). -/
def broadcastShapes2 (s1 s2 : List Nat) : Except Unit (List Nat) :=
  match bcastRev s1.reverse s2.reverse with
  | .error e => .error e
  | .ok r => .ok r.reverse

/-- Forward-aligned consequence of a successful shape broadcast that the
correctness arguments use: every axis of `s` (aligned from the trailing
end of `target`) either agrees with the target extent or is 1. -/
def ShapeCompat (s target : List Nat) : Prop :=
  s.length ≤ target.length ∧
  ∀ k, k < s.length →
    s.getD k 0 = target.getD (k + (target.length - s.length)) 0 ∨ s.getD k 0 = 1

/-! ### Stride broadcasting (src/gpu-array.js, broadcastStrides) -/

/-- The per-axis adjustment loop of `broadcastStrides` on the unpadded
(own) axes of the operand: keep the stride when it is already 0 or the
extents agree, throw `Incompatible Shape` when the operand extent differs
from the target and is not 1, otherwise force the stride to 0.  The
catch-all case is a length mismatch among shape/strides/target, which
cannot happen for an NDArray (its constructor enforces
`strides.length === shape.length`). -/
def adjustStrides : List Nat → List Nat → List Nat → Except Unit (List Nat)
  | s :: ss, st :: sts, t :: ts =>
    if st = 0 ∨ s = t then
      match adjustStrides ss sts ts with
      | .error e => .error e
      | .ok r => .ok (st :: r)
    else if s ≠ 1 then .error ()
    else
      match adjustStrides ss sts ts with
      | .error e => .error e
      | .ok r => .ok (0 :: r)
  | [], [], [] => .ok []
  | _, _, _ => .error ()

/-- Shallow embedding of `broadcastStrides` (src/gpu-array.js lines
140-167).  The source first rejects operands of larger rank than the
target, left-pads the stride list with zeros to the target rank (those
padded axes always hit the `strides[i] === 0` continue-branch of the
loop), and adjusts the own axes per `adjustStrides`. -/
def broadcastStrides (shape strides target : List Nat) : Except Unit (List Nat) :=
  if target.length < strides.length then .error ()
  else
    match adjustStrides shape strides (target.drop (target.length - strides.length)) with
    | .error e => .error e
    | .ok r => .ok (List.replicate (target.length - strides.length) 0 ++ r)

/-- The stride list produced by a successful `broadcastStrides` on the own
axes: the operand stride where the extents agree, 0 elsewhere. -/
def forcedStrides : List Nat → List Nat → List Nat → List Nat
  | s :: ss, st :: sts, t :: ts =>
    (if s = t then st else 0) :: forcedStrides ss sts ts
  | _, _, _ => []

/-- Broadcast-resolved source multi-index: the output index restricted to
the operand's own axes, with axes of extent 1 contributing index 0 (their
single element). -/
def resolveIdx (src target idx : List Nat) : List Nat :=
  List.zipWith (fun d i => if d = 1 then 0 else i) src
    (idx.drop (target.length - src.length))

/-! ### The NDArray state (src/gpu-array.js, class NDArray)

Host and device buffers are modelled as total functions `Nat → Int` (typed
arrays zero-initialize, and all kernel/driver accesses used by the claims
are in bounds).  The fields `pending`, `nextPromise`, `h2d`, `d2h` and
`stagings` instrument the asynchronous load machinery: `pending` is the
`#load_promise` field (promises are identified by a counter), `h2d`/`d2h`
count `writeBuffer`/`copyBufferToBuffer` submissions and `stagings` counts
created staging buffers, so that "performs no copy" is observable. -/

structure NDA where
  shape : List Nat
  strides : List Nat
  custom_strides : Bool
  dtype : DType
  cpu : Nat → Int
  gpu : Nat → Int
  cpu_dirty : Bool
  gpu_dirty : Bool
  pending : Option Nat
  nextPromise : Nat
  h2d : Nat
  d2h : Nat
  stagings : Nat

/-- Element count of an NDArray (src/gpu-array.js lines 952-955): product
of the shape for derived strides, max flat offset + 1 for custom strides. -/
def NDA.len (a : NDA) : Nat :=
  if a.custom_strides then 1 + dot (a.shape.map (fun v => v - 1)) a.strides
  else a.shape.prod

/-- Logical value of the array: the host buffer when the host side is
newer, otherwise the device buffer (both agree when neither is dirty). -/
def NDA.val (a : NDA) : Nat → Int :=
  if a.cpu_dirty then a.cpu else a.gpu

/-- A freshly allocated NDArray (`backend.Array({shape, dtype})`): derived
contiguous strides, zeroed buffers, clean flags. -/
def mkArray (shape : List Nat) (dt : DType) : NDA :=
  { shape := shape
    strides := jsStrides shape
    custom_strides := false
    dtype := dt
    cpu := fun _ => 0
    gpu := fun _ => 0
    cpu_dirty := false
    gpu_dirty := false
    pending := none
    nextPromise := 0
    h2d := 0
    d2h := 0
    stagings := 0 }

/-- `NDArray.send()` (src/gpu-array.js lines 1063-1071): no-op unless
`cpu_dirty`, else copy the host buffer to the device buffer and clear
`cpu_dirty`. -/
def sendEff (a : NDA) : NDA :=
  if a.cpu_dirty then { a with gpu := a.cpu, cpu_dirty := false, h2d := a.h2d + 1 }
  else a

/-- The synchronous part of `NDArray.load()` (src/gpu-array.js lines
1024-1057): no-op (returning no promise) unless `gpu_dirty`; the pending
promise is returned unchanged if a load is outstanding; otherwise a
staging buffer is created, a device-to-staging copy is submitted, and a
fresh promise is recorded and returned. -/
def loadStart (a : NDA) : NDA × Option Nat :=
  if a.gpu_dirty then
    match a.pending with
    | some p => (a, some p)
    | none =>
      ({ a with
          pending := some a.nextPromise
          nextPromise := a.nextPromise + 1
          d2h := a.d2h + 1
          stagings := a.stagings + 1 }, some a.nextPromise)
  else (a, none)

/-- Completion of an outstanding load: the mapped staging bytes are copied
into the host buffer and `gpu_dirty` is cleared. -/
def loadFinish (a : NDA) : NDA :=
  match a.pending with
  | some _ => { a with cpu := a.gpu, gpu_dirty := false, pending := none }
  | none => a

/-- An awaited `load()`: the synchronous part followed by completion of
the promise (if any). -/
def loadEff (a : NDA) : NDA :=
  loadFinish (loadStart a).1

/-- Full-index `NDArray.set(value, ...index)` (src/gpu-array.js lines
1116-1137): writes the host buffer at the flat offset and marks the host
side dirty.  (The whole-buffer and partial-index forms set `cpu_dirty` the
same way.) -/
def setEff (v : Int) (idx : List Nat) (a : NDA) : NDA :=
  { a with
      cpu_dirty := true
      cpu := fun j => if j = dot idx a.strides then v else a.cpu j }

/-- Resource binding modes of `GPUBackend.execute`. -/
inductive Mode where
  | readOnly
  | writeOnly
  | readWrite
deriving DecidableEq

/-- The per-array effect of `GPUBackend.execute` (src/gpu-array.js lines
463-480): read operands are sent, written operands are marked
device-dirty, and a write-only operand additionally has `cpu_dirty`
cleared without any transfer. -/
def executeMode (m : Mode) (a : NDA) : NDA :=
  match m with
  | .readOnly => sendEff a
  | .writeOnly => { a with cpu_dirty := false, gpu_dirty := true }
  | .readWrite => { sendEff a with gpu_dirty := true }

/-- Public single-array operations considered by the staleness claims. -/
inductive ArrayOp where
  | set (v : Int) (idx : List Nat)
  | send
  | load
  | exec (m : Mode)

/-- Apply one public operation (with `load` meaning a completed load). -/
def applyOp : ArrayOp → NDA → NDA
  | .set v idx => setEff v idx
  | .send => sendEff
  | .load => loadEff
  | .exec m => executeMode m

/-- Concrete array whose device side is newer (e.g. after being the
output of a kernel). -/
def demoGpuDirty : NDA :=
  { mkArray [1] .f32 with gpu_dirty := true }

/-- Concrete array with an outstanding load. -/
def demoPending : NDA :=
  { mkArray [1] .f32 with
      gpu_dirty := true, pending := some 0, nextPromise := 1, d2h := 1,
      stagings := 1 }

/-- Concrete array whose host side is newer (after a `set`). -/
def demoCpuDirty : NDA :=
  { mkArray [1] .f32 with cpu_dirty := true, cpu := fun _ => 7 }

/-- Concrete array with caller-supplied (custom) strides. -/
def demoCustom : NDA :=
  { mkArray [4] .f32 with custom_strides := true, strides := [2] }

/-- Well-formedness maintained by the NDArray constructor: a nonempty
shape of positive extents, strides of matching length, and — when the
caller supplied no custom strides — the derived contiguous strides. -/
def WF (a : NDA) : Prop :=
  a.shape ≠ [] ∧ (∀ d ∈ a.shape, 0 < d) ∧ a.strides.length = a.shape.length ∧
    (a.custom_strides = false → a.strides = jsStrides a.shape)

/-- Concrete 3-element `i32` operand holding `0, 1, 2` on the host. -/
def demoA : NDA :=
  { mkArray [3] .i32 with cpu := fun i => Int.ofNat i, cpu_dirty := true }

/-- Concrete broadcast (shape `[1]`) `i32` operand holding `10`. -/
def demoB : NDA :=
  { mkArray [1] .i32 with cpu := fun _ => 10, cpu_dirty := true }

/-! ### The elementwise pipeline (src/gpu-array.js, _vector_op / _func2 /
where) -/

/-- `equalShapes` of the source restricted to three shapes: all equal to
the first. -/
def equalShapes3 (s1 s2 s3 : List Nat) : Bool :=
  s1 == s2 && s1 == s3

/-- `equalShapes` for the four shapes of `where`. -/
def equalShapes4 (s1 s2 s3 s4 : List Nat) : Bool :=
  s1 == s2 && s1 == s3 && s1 == s4

/-- Value written by the direct (same-shape) binary kernels at output
index `x` (`vector_op` / `func2`, src/shader.js).  The kernel body is
`out[i] = out.conv(lhs.conv(lhs[i]) op rhs.conv(rhs[i]))`; `f` stands for
that whole scalar computation — the dtype conversion casts around `op`
and the 32-bit wrap-around of the WGSL integer `op` included — and is
instantiated per dtype by the callers below (each `conv` is the empty
cast exactly when the corresponding dtype equals the promoted dtype). -/
def directKernelVal (f : Int → Int → Int) (lv rv : Nat → Int) (x : Nat) : Int :=
  f (lv x) (rv x)

/-- Value written by `vector_op_indirect` at output index `x`: operand
reads are redirected through the per-operand offsets; `f` is the scalar
body `out.conv(lhs.conv(lhs[L]) op rhs.conv(rhs[R]))` as in
`directKernelVal`, casts and integer wrap included. -/
def vecIndirectVal (f : Int → Int → Int) (lv rv : Nat → Int)
    (ostr ls rs : List Nat) (x : Nat) : Int :=
  f (lv (vector_op_indirect_idx ostr ls rs x).1)
    (rv (vector_op_indirect_idx ostr ls rs x).2)

/-- Value written by `func2_indirect` at output index `x`. -/
def func2IndirectVal (f : Int → Int → Int) (lv rv : Nat → Int)
    (ostr ls rs : List Nat) (x : Nat) : Int :=
  f (lv (func2_indirect_idx ostr ls rs x).1)
    (rv (func2_indirect_idx ostr ls rs x).2)

/-- Value written by the direct `where` kernel at output index `x`. -/
def whereDirectVal (cv tv fv : Nat → Int) (x : Nat) : Int :=
  if cv x ≠ 0 then tv x else fv x

/-- Value written by `where_indirect` at output index `x`. -/
def whereIndirectVal (cv tv fv : Nat → Int)
    (ostr cs ts fs : List Nat) (x : Nat) : Int :=
  if cv (where_indirect_idx ostr cs ts fs x).1 ≠ 0 then
    tv (where_indirect_idx ostr cs ts fs x).2.1
  else
    fv (where_indirect_idx ostr cs ts fs x).2.2

/-- Shallow embedding of `GPUBackend._vector_op` (src/gpu-array.js lines
531-635) for two array operands and a given output array.  The result is
the mutated state of `(lhs, rhs, out)` together with `some ()` when the
call throws; all throws (`promoteType`, the custom-strides check on `out`,
`broadcastStrides`) happen before any mutation, exactly as in the source.
On success the read operands are sent, the output is marked device-dirty
with its host-dirty flag cleared, and the dispatched kernel overwrites
every device element `x < out.len` of the output. -/
def vectorOpRun (f : Int → Int → Int) (a b out : NDA) :
    (NDA × NDA × NDA) × Option Unit :=
  match promoteType (some a.dtype) (some b.dtype) with
  | .error _ => ((a, b, out), some ())
  | .ok _ =>
    if out.custom_strides then ((a, b, out), some ())
    else if a.custom_strides || b.custom_strides ||
        !equalShapes3 a.shape b.shape out.shape then
      match broadcastStrides a.shape a.strides out.shape with
      | .error _ => ((a, b, out), some ())
      | .ok ls =>
        match broadcastStrides b.shape b.strides out.shape with
        | .error _ => ((a, b, out), some ())
        | .ok rs =>
          ((sendEff a, sendEff b,
            { out with
                cpu_dirty := false
                gpu_dirty := true
                gpu := fun x =>
                  if x < out.len then
                    vecIndirectVal f (sendEff a).gpu (sendEff b).gpu
                      out.strides ls rs x
                  else out.gpu x }), none)
    else
      ((sendEff a, sendEff b,
        { out with
            cpu_dirty := false
            gpu_dirty := true
            gpu := fun x =>
              if x < out.len then
                directKernelVal f (sendEff a).gpu (sendEff b).gpu x
              else out.gpu x }), none)

/-- Wrap-around of WGSL `i32` arithmetic: an overflowing result wraps
modulo 2^32 into the two's-complement range [-2^31, 2^31).  This is the
value an `i32` storage buffer holds after the kernel's `+` overflows. -/
def wrapI32 (v : Int) : Int := (v + 2 ^ 31) % 2 ^ 32 - 2 ^ 31

/-- Wrap-around of WGSL `u32` arithmetic: reduction modulo 2^32 into
[0, 2^32) — the same wrap the reduction-kernel model uses. -/
def wrapU32 (v : Int) : Int := v % 2 ^ 32

/-- `_vector_op` with `+` and no explicit output, as in `gpu.add(a, b)`:
the output is allocated with the broadcast shape and the promoted dtype.
The generated kernel stores `out.conv(lhs.conv(x) + rhs.conv(y))`, where
each `conv` is the empty cast exactly when the corresponding dtype equals
the promoted dtype; the WGSL `+` then computes at the promoted dtype and,
for the integer dtypes, wraps its result to 32 bits.  `w` is that
after-op semantics (casts and wrap): the theorems below instantiate it at
`wrapI32` / `wrapU32` for operands of one shared integer dtype, the case
in which every `conv` is empty and `+` is the wrapping 32-bit addition. -/
def vectorOpAddW (w : Int → Int) (a b : NDA) : Except Unit NDA :=
  match promoteType (some a.dtype) (some b.dtype) with
  | .error e => .error e
  | .ok dt =>
    match broadcastShapes2 a.shape b.shape with
    | .error e => .error e
    | .ok oshape =>
      match vectorOpRun (fun x y => w (x + y)) a b (mkArray oshape dt) with
      | (st, none) => .ok st.2.2
      | (_, some e) => .error e

/-- The result of `add(demoA, demoB)` (both operands `i32`, so the kernel
adds with the `i32` wrap). -/
def demoRes : NDA :=
  match vectorOpAddW wrapI32 demoA demoB with
  | .ok r => r
  | .error _ => mkArray [1] .i32

/-- Single-element `i32` operand holding the largest `i32` value,
2^31 - 1. -/
def cexA : NDA :=
  { mkArray [1] .i32 with cpu := fun _ => 2 ^ 31 - 1, cpu_dirty := true }

/-- Single-element `i32` operand holding `1`. -/
def cexB : NDA :=
  { mkArray [1] .i32 with cpu := fun _ => 1, cpu_dirty := true }

/-- The result of `add(cexA, cexB)`: the `i32` kernel addition overflows
and wraps. -/
def cexRes : NDA :=
  match vectorOpAddW wrapI32 cexA cexB with
  | .ok r => r
  | .error _ => mkArray [1] .i32

/-- Shallow embedding of `GPUBackend._func2` (src/gpu-array.js lines
672-735) with a given output array; same check order and effects as
`vectorOpRun`, but using the `func2` kernels. -/
def func2Run (f : Int → Int → Int) (a b out : NDA) :
    (NDA × NDA × NDA) × Option Unit :=
  match promoteType (some a.dtype) (some b.dtype) with
  | .error _ => ((a, b, out), some ())
  | .ok _ =>
    if out.custom_strides then ((a, b, out), some ())
    else if a.custom_strides || b.custom_strides ||
        !equalShapes3 a.shape b.shape out.shape then
      match broadcastStrides a.shape a.strides out.shape with
      | .error _ => ((a, b, out), some ())
      | .ok ls =>
        match broadcastStrides b.shape b.strides out.shape with
        | .error _ => ((a, b, out), some ())
        | .ok rs =>
          ((sendEff a, sendEff b,
            { out with
                cpu_dirty := false
                gpu_dirty := true
                gpu := fun x =>
                  if x < out.len then
                    func2IndirectVal f (sendEff a).gpu (sendEff b).gpu
                      out.strides ls rs x
                  else out.gpu x }), none)
    else
      ((sendEff a, sendEff b,
        { out with
            cpu_dirty := false
            gpu_dirty := true
            gpu := fun x =>
              if x < out.len then
                directKernelVal f (sendEff a).gpu (sendEff b).gpu x
              else out.gpu x }), none)

/-- Shallow embedding of `GPUBackend.where` (src/gpu-array.js lines
818-888) with a given output array.  With a provided output the first
possible throw is the custom-strides check on the output, then
`broadcastStrides` of the three read operands; only afterwards is the
dispatch submitted. -/
def whereRun (c t f out : NDA) : (NDA × NDA × NDA × NDA) × Option Unit :=
  if out.custom_strides then ((c, t, f, out), some ())
  else if c.custom_strides || t.custom_strides || f.custom_strides ||
      out.custom_strides ||
      !equalShapes4 c.shape t.shape f.shape out.shape then
    match broadcastStrides c.shape c.strides out.shape with
    | .error _ => ((c, t, f, out), some ())
    | .ok cs =>
      match broadcastStrides t.shape t.strides out.shape with
      | .error _ => ((c, t, f, out), some ())
      | .ok ts =>
        match broadcastStrides f.shape f.strides out.shape with
        | .error _ => ((c, t, f, out), some ())
        | .ok fs =>
          ((sendEff c, sendEff t, sendEff f,
            { out with
                cpu_dirty := false
                gpu_dirty := true
                gpu := fun x =>
                  if x < out.len then
                    whereIndirectVal (sendEff c).gpu (sendEff t).gpu (sendEff f).gpu
                      out.strides cs ts fs x
                  else out.gpu x }), none)
  else
    ((sendEff c, sendEff t, sendEff f,
      { out with
          cpu_dirty := false
          gpu_dirty := true
          gpu := fun x =>
            if x < out.len then
              whereDirectVal (sendEff c).gpu (sendEff t).gpu (sendEff f).gpu x
            else out.gpu x }), none)

/-- State-level embedding of `GPUBackend._reduce_op` /
`GPUBackend._reduce_func` (src/gpu-array.js lines 737-809) as far as the
reduction argument is concerned: custom strides on the input throw before
anything happens; otherwise the first pass reads (and therefore sends) the
argument and the result is a fresh output array.  The numeric content of
the result is modelled by `_reduce_op` below. -/
def reduceRun (arg : NDA) : NDA × Option Unit :=
  if arg.custom_strides then (arg, some ())
  else (sendEff arg, none)

/-! ### The reduction pipeline values (src/shader.js reduce_op and
src/gpu-array.js _reduce_op)

Integer (`u32`, and bit-identically `i32`) elements are modelled as
naturals below `2 ^ 32`; every in-kernel accumulation wraps modulo
`2 ^ 32`.  The `max L 1` in the recursions only makes totality explicit:
the kernel's stride `size` is the workgroup size, which is positive at
every call site (`1` or a value between 32 and 64). -/

/-- Accumulation loop of one lane of the `reduce_op` kernel:
`for (var i = id.x + size; i < N; i += size) { v = v OP arg[i]; }`
with wrapping `u32` addition. -/
def reduceLoop (M : Nat) (a : Nat → Nat) (N L i v : Nat) : Nat :=
  if i < N then reduceLoop M a N L (i + max L 1) ((v + a i) % M) else v
termination_by N - i
decreasing_by omega

/-- Lane `k` of the `reduce_op` kernel: start from `arg[id.x]`, then
accumulate the rest of the lane's residue class. -/
def reduceLane (M : Nat) (a : Nat → Nat) (N L k : Nat) : Nat :=
  reduceLoop M a N L (k + max L 1) (a k)

/-- One dispatch of the `reduce_op` kernel with output length (and
workgroup size) `L` over the current data. -/
def reducePass (M : Nat) (data : List Nat) (L : Nat) : List Nat :=
  (List.range L).map (fun k => reduceLane M (fun i => data.getD i 0) data.length L k)

/-- Per-pass output length chosen by `_reduce_op`
(src/gpu-array.js lines 743-745):
`arg.length > 64 ? min(1 << (floor(log2(arg.length)) - 1), 64) : 1`. -/
def reduceLength (N : Nat) : Nat :=
  if 64 < N then min (2 ^ (Nat.log2 N - 1)) 64 else 1

/-- The pass loop of `_reduce_op` for the additive (`+`) reduction on an
integer-typed array: repeat tree-reduction passes until a single-element
result remains.  Totality of this definition is the termination claim:
when the pass recurses, `64 < N` and the new length is at most 64. -/
def _reduce_op (data : List Nat) : List Nat :=
  if reduceLength data.length = 1 then
    reducePass (2 ^ 32) data (reduceLength data.length)
  else
    _reduce_op (reducePass (2 ^ 32) data (reduceLength data.length))
termination_by data.length
decreasing_by
  rename_i h
  simp only [reducePass, List.length_map, List.length_range]
  unfold reduceLength at h ⊢
  by_cases h64 : 64 < data.length
  · simp only [if_pos h64]
    have hm : min (2 ^ (Nat.log2 data.length - 1)) 64 ≤ 64 := min_le_right _ _
    omega
  · simp [if_neg h64] at h

/-- Reference sum of a lane's residue class (no wrapping): the plain sum
of `a i, a (i+L), ...` below `N`. -/
def ssum (a : Nat → Nat) (N L i : Nat) : Nat :=
  if i < N then a i + ssum a N L (i + max L 1) else 0
termination_by N - i
decreasing_by omega

/-! ### The xoshiro128++ state-initialization kernel (src/shader.js,
xoshiro128pp_init)

The PRNG state is a list of 4-word vectors (`vec4<u32>`), one per stream.
`xoNext` is the `next` step of the kernel with the output statement
omitted (as in the init shader, where `_xoshiro128pp_next` is instantiated
without an output binding). -/

/-- A `vec4<u32>` state vector. -/
abbrev Vec4 := Nat × Nat × Nat × Nat

/-- `rotl(x, k)` on `u32`. -/
def rotl (x k : Nat) : Nat :=
  (x <<< k) % 2 ^ 32 ||| x >>> (32 - k)

/-- One xoshiro128++ state advance (`fn next` of the shader, without the
output write). -/
def xoNext (s : Vec4) : Vec4 :=
  let t := s.2.1 <<< 9 % 2 ^ 32
  let s2 := s.2.2.1 ^^^ s.1
  let s3 := s.2.2.2 ^^^ s.2.1
  let s1 := s.2.1 ^^^ s2
  let s0 := s.1 ^^^ s3
  (s0, s1, s2 ^^^ t, rotl s3 11)

/-- Componentwise XOR of state vectors (`s ^= state[i]` on `vec4<u32>`). -/
def vxor (u v : Vec4) : Vec4 :=
  (u.1 ^^^ v.1, u.2.1 ^^^ v.2.1, u.2.2.1 ^^^ v.2.2.1, u.2.2.2 ^^^ v.2.2.2)

/-- The jump polynomial constant `JUMP` of the init shader. -/
def JUMP : List Nat :=
  [0x8764000b, 0xf542d2d3, 0x6fa035c3, 0x77f2db5b]

/-- Literal embedding of `fn jump(i: u32)` of `xoshiro128pp_init`
(src/shader.js lines 698-710) applied to stream `k`.  The inner loop
variable `var i: u32 = 0; i < 4` SHADOWS the parameter `i`, so inside the
loops `state[i]` reads — and `next(i)` advances — streams 0..3, not stream
`k`; only the final `state[i] = s` (outside the loop's scope) uses the
parameter again.  The state is threaded through the folds together with
the accumulator `s`. -/
def jump_code (st : List Vec4) (k : Nat) : List Vec4 :=
  let run :=
    (List.range 4).foldl
      (fun (p : List Vec4 × Vec4) i =>
        (List.range 32).foldl
          (fun (q : List Vec4 × Vec4) b =>
            let acc := if JUMP.getD i 0 &&& 1 <<< b ≠ 0 then
                vxor q.2 (q.1.getD i (0, 0, 0, 0))
              else q.2
            (q.1.set i (xoNext (q.1.getD i (0, 0, 0, 0))), acc))
          p)
      (st, (0, 0, 0, 0))
  run.1.set k run.2

/-- Modelled from the spec: the intended jump routine described by §4.5 of
the specification (and by the reference xoshiro128++ jump function), in
which all 128 single-step advances and the XOR-accumulated reads apply to
stream `k`'s own state vector, whose final value becomes the accumulator. -/
def jump_spec (st : List Vec4) (k : Nat) : List Vec4 :=
  let run :=
    (List.range 4).foldl
      (fun (p : Vec4 × Vec4) i =>
        (List.range 32).foldl
          (fun (q : Vec4 × Vec4) b =>
            let acc := if JUMP.getD i 0 &&& 1 <<< b ≠ 0 then vxor q.2 q.1
              else q.2
            (xoNext q.1, acc))
          p)
      (st.getD k (0, 0, 0, 0), (0, 0, 0, 0))
  st.set k run.2

/-- Concrete 4-stream PRNG state used to exhibit the jump bug. -/
def jumpState0 : List Vec4 :=
  [(1, 2, 3, 4), (5, 6, 7, 8), (9, 10, 11, 12), (13, 14, 15, 16)]

/-- `jumpState0` with only stream 3 changed. -/
def jumpState1 : List Vec4 :=
  [(1, 2, 3, 4), (5, 6, 7, 8), (9, 10, 11, 12), (99, 98, 97, 96)]

/-! ## Theorems -/

/-! ### Basic facts about contiguous strides -/

theorem jsStrides_foldl (ds acc : List Nat) :
    ds.foldl (fun a si => a.map (fun ai => ai * si) ++ [1]) acc =
      acc.map (fun ai => ai * ds.prod) ++ contStrides ds := by
  induction ds generalizing acc with
  | nil => simp [contStrides]
  | cons d ds ih =>
    simp only [List.foldl_cons, ih, contStrides, List.prod_cons]
    rw [List.map_append]
    simp [Nat.mul_comm, Nat.mul_assoc, Nat.mul_left_comm]

theorem jsStrides_eq_contStrides (ds : List Nat) : jsStrides ds = contStrides ds := by
  simpa [jsStrides] using jsStrides_foldl ds []

theorem contStrides_length (ds : List Nat) : (contStrides ds).length = ds.length := by
  induction ds with
  | nil => rfl
  | cons d ds ih => simp [contStrides, ih]

theorem contStrides_getD (ds : List Nat) (j : Nat) (hj : j < ds.length) :
    (contStrides ds).getD j 0 = (ds.drop (j + 1)).prod := by
  induction ds generalizing j with
  | nil => simp at hj
  | cons d ds ih =>
    cases j with
    | zero => simp [contStrides]
    | succ j =>
      simp only [contStrides, List.getD_cons_succ, List.drop_succ_cons]
      exact ih j (by simpa using hj)

theorem contStrides_pos (ds : List Nat) (hpos : ∀ d ∈ ds, 0 < d)
    (j : Nat) (hj : j < ds.length) : 0 < (contStrides ds).getD j 0 := by
  rw [contStrides_getD ds j hj]
  exact List.prod_pos fun x hx => hpos x (List.mem_of_mem_drop hx)

theorem contStrides_last (ds : List Nat) (h : ds ≠ []) :
    (contStrides ds).getD (ds.length - 1) 0 = 1 := by
  have hlen : 0 < ds.length := List.length_pos.mpr h
  rw [contStrides_getD ds (ds.length - 1) (by omega)]
  have : ds.length - 1 + 1 = ds.length := by omega
  rw [this, List.drop_length, List.prod_nil]

theorem contStrides_succ (ds : List Nat) (j : Nat) (hj : j + 1 < ds.length) :
    (contStrides ds).getD j 0 = ds.getD (j + 1) 0 * (contStrides ds).getD (j + 1) 0 := by
  rw [contStrides_getD ds j (by omega), contStrides_getD ds (j + 1) hj,
    List.drop_eq_getElem_cons hj, List.prod_cons, List.getD_eq_getElem ds 0 hj]

theorem prod_drop_dvd_prod_drop (ds : List Nat) (j k : Nat) (hjk : j ≤ k) :
    (ds.drop k).prod ∣ (ds.drop j).prod := by
  have hsplit : ((ds.drop j).take (k - j)).prod * ((ds.drop j).drop (k - j)).prod =
      (ds.drop j).prod := List.prod_take_mul_prod_drop _ _
  rw [List.drop_drop] at hsplit
  have hkj : j + (k - j) = k := by omega
  rw [hkj] at hsplit
  exact ⟨_, by rw [← hsplit, Nat.mul_comm]⟩

theorem contStrides_dvd (ds : List Nat) (j k : Nat) (hjk : j ≤ k)
    (hk : k < ds.length) :
    (contStrides ds).getD k 0 ∣ (contStrides ds).getD j 0 := by
  rw [contStrides_getD ds k hk, contStrides_getD ds j (by omega)]
  exact prod_drop_dvd_prod_drop ds (j + 1) (k + 1) (by omega)

theorem contStrides_dvd_prod (ds : List Nat) (j : Nat) (hj : j < ds.length) :
    (contStrides ds).getD j 0 ∣ ds.prod := by
  rw [contStrides_getD ds j hj]
  simpa using prod_drop_dvd_prod_drop ds 0 (j + 1) (by omega)

theorem prod_head_mul (ds : List Nat) (h : ds ≠ []) :
    ds.prod = ds.getD 0 0 * (contStrides ds).getD 0 0 := by
  cases ds with
  | nil => exact absurd rfl h
  | cons d ds => simp [contStrides]

theorem prod_take_getD (ds : List Nat) (j : Nat) (hj : j < ds.length) :
    (ds.take (j + 1)).prod = (ds.take j).prod * ds.getD j 0 := by
  rw [List.take_succ, List.prod_append, List.getD_eq_getElem ds 0 hj]
  simp [List.getElem?_eq_getElem hj]

theorem prod_take_mul_stride (ds : List Nat) (j : Nat) (hj : j < ds.length) :
    ds.prod = (ds.take (j + 1)).prod * (contStrides ds).getD j 0 := by
  rw [contStrides_getD ds j hj, ← List.prod_take_mul_prod_drop ds (j + 1)]

/-! ### Facts about dot products and the mixed-radix decomposition -/

theorem dot_nil_left (ys : List Nat) : dot [] ys = 0 := rfl

theorem dot_cons_cons (x y : Nat) (xs ys : List Nat) :
    dot (x :: xs) (y :: ys) = x * y + dot xs ys := by
  simp [dot]

theorem dot_eq_sum_getD (xs ys : List Nat) (n : Nat)
    (hx : xs.length = n) (hy : ys.length = n) :
    dot xs ys = ∑ j ∈ Finset.range n, xs.getD j 0 * ys.getD j 0 := by
  induction xs generalizing ys n with
  | nil =>
    subst hx
    simp [dot]
  | cons x xs ih =>
    cases ys with
    | nil => simp at hx hy; omega
    | cons y ys =>
      cases n with
      | zero => simp at hx
      | succ n =>
        rw [dot_cons_cons, Finset.sum_range_succ']
        simp only [List.getD_cons_succ, List.getD_cons_zero]
        rw [ih ys n (by simpa using hx) (by simpa using hy)]
        omega

theorem dot_lt_prod (ds idx : List Nat) (hlen : idx.length = ds.length)
    (hbnd : ∀ k, k < ds.length → idx.getD k 0 < ds.getD k 0) :
    dot idx (contStrides ds) < ds.prod := by
  induction ds generalizing idx with
  | nil =>
    rw [List.length_eq_zero.mp hlen]
    simp [dot]
  | cons d ds ih =>
    cases idx with
    | nil => simp at hlen
    | cons i is =>
      have h0 : i < d := by simpa using hbnd 0 (by simp)
      have hrec : dot is (contStrides ds) < ds.prod := by
        refine ih is (by simpa using hlen) ?bnd
        intro k hk
        simpa using hbnd (k + 1) (by simpa using Nat.succ_lt_succ hk)
      simp only [contStrides, List.prod_cons]
      rw [dot_cons_cons]
      calc i * ds.prod + dot is (contStrides ds)
          < i * ds.prod + ds.prod := by omega
        _ = (i + 1) * ds.prod := by ring
        _ ≤ d * ds.prod := Nat.mul_le_mul_right _ (by omega)

theorem div_stride_mod_eq (ds : List Nat) (j x : Nat) (hj : j < ds.length)
    (hpos : ∀ d ∈ ds, 0 < d) :
    x / (contStrides ds).getD j 0 % ds.getD j 0 =
      x % ds.prod / (contStrides ds).getD j 0 % ds.getD j 0 := by
  set σ := (contStrides ds).getD j 0 with hσ
  have hσpos : 0 < σ := contStrides_pos ds hpos j hj
  have hP : ds.prod = (ds.take (j + 1)).prod * σ := prod_take_mul_stride ds j hj
  have hdecomp : x = x % ds.prod + ds.prod * (x / ds.prod) := (Nat.mod_add_div x ds.prod).symm
  have hdiv : x / σ = x % ds.prod / σ + (ds.take (j + 1)).prod * (x / ds.prod) := by
    conv_lhs => rw [hdecomp]
    rw [hP]
    rw [Nat.mul_assoc, Nat.mul_comm σ, ← Nat.mul_assoc]
    rw [Nat.add_mul_div_right _ _ hσpos]
  rw [hdiv, prod_take_getD ds j hj]
  rw [Nat.mul_assoc, Nat.mul_comm (ds.getD j 0), ← Nat.mul_assoc]
  rw [Nat.add_mul_mod_self_right]

theorem sum_mIdx_eq (ds : List Nat) (x : Nat) (hpos : ∀ d ∈ ds, 0 < d)
    (hx : x < ds.prod) :
    ∑ j ∈ Finset.range ds.length, mIdx ds x j * (contStrides ds).getD j 0 = x := by
  induction ds generalizing x with
  | nil =>
    simp only [List.prod_nil, Nat.lt_one_iff] at hx
    simp [hx]
  | cons d ds ih =>
    have hpos' : ∀ v ∈ ds, 0 < v := fun v hv => hpos v (List.mem_cons_of_mem d hv)
    have hdpos : 0 < d := hpos d (List.mem_cons_self d ds)
    have hPpos : 0 < ds.prod := List.prod_pos hpos'
    simp only [List.length_cons]
    rw [Finset.sum_range_succ']
    have hshift : ∀ j, j < ds.length →
        mIdx (d :: ds) x (j + 1) * (contStrides (d :: ds)).getD (j + 1) 0 =
          mIdx ds (x % ds.prod) j * (contStrides ds).getD j 0 := by
      intro j hj
      simp only [mIdx, contStrides, List.getD_cons_succ]
      rw [div_stride_mod_eq ds j x hj hpos']
    rw [Finset.sum_congr rfl (fun j hj => hshift j (Finset.mem_range.mp hj))]
    rw [ih (x % ds.prod) hpos' (Nat.mod_lt x hPpos)]
    have hm0 : mIdx (d :: ds) x 0 = x / ds.prod := by
      simp only [mIdx, contStrides, List.getD_cons_zero]
      refine Nat.mod_eq_of_lt ?lt
      refine Nat.div_lt_of_lt_mul ?ltmul
      rw [List.prod_cons] at hx
      rw [Nat.mul_comm]
      exact hx
    rw [hm0]
    simp only [contStrides, List.getD_cons_zero]
    have h1 := Nat.mod_add_div x ds.prod
    have h2 : x / ds.prod * ds.prod = ds.prod * (x / ds.prod) := Nat.mul_comm _ _
    omega

theorem mIdx_lt (ds : List Nat) (x j : Nat) (hpos : ∀ d ∈ ds, 0 < d)
    (hj : j < ds.length) : mIdx ds x j < ds.getD j 0 := by
  have : 0 < ds.getD j 0 := by
    rw [List.getD_eq_getElem ds 0 hj]
    exact hpos _ (List.getElem_mem hj)
  exact Nat.mod_lt _ this

theorem multiIndex_getD (ds : List Nat) (x j : Nat) (hj : j < ds.length) :
    (multiIndex ds x).getD j 0 = mIdx ds x j := by
  simp only [multiIndex, mIdx]
  rw [List.getD_eq_getElem _ 0 (by simpa using hj)]
  simp

theorem multiIndex_length (ds : List Nat) (x : Nat) :
    (multiIndex ds x).length = ds.length := by
  simp [multiIndex]

theorem mIdx_dot (ds idx : List Nat) (j : Nat) (hpos : ∀ d ∈ ds, 0 < d)
    (hlen : idx.length = ds.length)
    (hbnd : ∀ k, k < ds.length → idx.getD k 0 < ds.getD k 0)
    (hj : j < ds.length) :
    mIdx ds (dot idx (contStrides ds)) j = idx.getD j 0 := by
  induction ds generalizing idx j with
  | nil => simp at hj
  | cons d ds ih =>
    cases idx with
    | nil => simp at hlen
    | cons i is =>
      have hpos' : ∀ v ∈ ds, 0 < v := fun v hv => hpos v (List.mem_cons_of_mem d hv)
      have hlen' : is.length = ds.length := by simpa using hlen
      have hbnd' : ∀ k, k < ds.length → is.getD k 0 < ds.getD k 0 := by
        intro k hk
        simpa using hbnd (k + 1) (by simpa using Nat.succ_lt_succ hk)
      have h0 : i < d := by simpa using hbnd 0 (by simp)
      have htail : dot is (contStrides ds) < ds.prod := dot_lt_prod ds is hlen' hbnd'
      have hx : dot (i :: is) (ds.prod :: contStrides ds) =
          i * ds.prod + dot is (contStrides ds) :=
        dot_cons_cons i ds.prod is (contStrides ds)
      cases j with
      | zero =>
        simp only [mIdx, contStrides, List.getD_cons_zero]
        rw [hx, Nat.add_comm, Nat.add_mul_div_right _ _ (List.prod_pos hpos'),
          Nat.div_eq_of_lt htail, Nat.zero_add]
        exact Nat.mod_eq_of_lt h0
      | succ j =>
        have hjlt : j < ds.length := by simpa using hj
        simp only [mIdx, contStrides, List.getD_cons_succ]
        rw [hx, div_stride_mod_eq ds j _ hjlt hpos']
        have hmod : (i * ds.prod + dot is (contStrides ds)) % ds.prod =
            dot is (contStrides ds) := by
          rw [Nat.add_comm, Nat.add_mul_mod_self_right]
          exact Nat.mod_eq_of_lt htail
        rw [hmod]
        have := ih is j hpos' hlen' hbnd' hjlt
        simpa [mIdx] using this

theorem multiIndex_dot (ds idx : List Nat) (hpos : ∀ d ∈ ds, 0 < d)
    (hlen : idx.length = ds.length)
    (hbnd : ∀ k, k < ds.length → idx.getD k 0 < ds.getD k 0) :
    multiIndex ds (dot idx (contStrides ds)) = idx := by
  have hlen2 : (multiIndex ds (dot idx (contStrides ds))).length = idx.length := by
    rw [multiIndex_length, hlen]
  refine List.ext_getElem hlen2 ?ptw
  intro j h1 h2
  have hj : j < ds.length := by rwa [multiIndex_length] at h1
  rw [← List.getD_eq_getElem _ 0 h1, ← List.getD_eq_getElem _ 0 h2]
  rw [multiIndex_getD ds _ j hj]
  exact mIdx_dot ds idx j hpos hlen hbnd hj

/-! ### Loop invariants of the strided kernels -/

theorem SA_succ (ds : List Nat) (x c : Nat) :
    SA ds x (c + 1) = SA ds x c + mIdx ds x (c + 1) * (contStrides ds).getD (c + 1) 0 :=
  Finset.sum_range_succ _ _

theorem LAcc_split (ds astr : List Nat) (x c : Nat) (hc1 : c + 1 < ds.length) :
    LAcc ds astr x c =
      mIdx ds x (c + 1) * astr.getD (c + 1) 0 + LAcc ds astr x (c + 1) :=
  Finset.sum_eq_sum_Ico_succ_bot hc1 _

theorem RB_split (ds : List Nat) (x c : Nat) (hc1 : c + 1 < ds.length) :
    RB ds x c =
      mIdx ds x (c + 1) * ((contStrides ds).getD (c + 1) 0 - 1) + RB ds x (c + 1) :=
  Finset.sum_eq_sum_Ico_succ_bot hc1 _

theorem RB_top (ds : List Nat) (x : Nat) (h : ds ≠ []) :
    RB ds x (ds.length - 1) = 0 := by
  unfold RB
  have hlen : 0 < ds.length := List.length_pos.mpr h
  have : ds.length - 1 + 1 = ds.length := by omega
  rw [this, Finset.Ico_self, Finset.sum_empty]

theorem RB_lt_aux (ds : List Nat) (x : Nat) (hpos : ∀ d ∈ ds, 0 < d) :
    ∀ n, n < ds.length →
      RB ds x (ds.length - 1 - n) < (contStrides ds).getD (ds.length - 1 - n) 0 := by
  intro n
  induction n with
  | zero =>
    intro h0
    have hne : ds ≠ [] := by
      intro h
      rw [h] at h0
      simp at h0
    rw [Nat.sub_zero, RB_top ds x hne]
    exact contStrides_pos ds hpos _ (by omega)
  | succ n ih =>
    intro hn1
    have hc1 : ds.length - 1 - (n + 1) + 1 = ds.length - 1 - n := by omega
    have hc1lt : ds.length - 1 - (n + 1) + 1 < ds.length := by omega
    set c := ds.length - 1 - (n + 1) with hcdef
    have hsplit := RB_split ds x c hc1lt
    have ihc : RB ds x (c + 1) < (contStrides ds).getD (c + 1) 0 := by
      rw [hc1]
      exact ih (by omega)
    have hm : mIdx ds x (c + 1) < ds.getD (c + 1) 0 := mIdx_lt ds x (c + 1) hpos hc1lt
    have hσ : (contStrides ds).getD c 0 =
        ds.getD (c + 1) 0 * (contStrides ds).getD (c + 1) 0 :=
      contStrides_succ ds c hc1lt
    have hσ'pos : 0 < (contStrides ds).getD (c + 1) 0 :=
      contStrides_pos ds hpos (c + 1) hc1lt
    have hD : 0 < ds.getD (c + 1) 0 := by omega
    have h1 : mIdx ds x (c + 1) * ((contStrides ds).getD (c + 1) 0 - 1) ≤
        (ds.getD (c + 1) 0 - 1) * ((contStrides ds).getD (c + 1) 0 - 1) :=
      Nat.mul_le_mul_right _ (by omega)
    have h2 : (ds.getD (c + 1) 0 - 1) * ((contStrides ds).getD (c + 1) 0 - 1) +
        ((contStrides ds).getD (c + 1) 0 - 1) =
        ds.getD (c + 1) 0 * ((contStrides ds).getD (c + 1) 0 - 1) := by
      have : ds.getD (c + 1) 0 - 1 + 1 = ds.getD (c + 1) 0 := by omega
      calc (ds.getD (c + 1) 0 - 1) * ((contStrides ds).getD (c + 1) 0 - 1) +
            ((contStrides ds).getD (c + 1) 0 - 1)
          = (ds.getD (c + 1) 0 - 1 + 1) * ((contStrides ds).getD (c + 1) 0 - 1) := by ring
        _ = ds.getD (c + 1) 0 * ((contStrides ds).getD (c + 1) 0 - 1) := by rw [this]
    have h3 : ds.getD (c + 1) 0 * ((contStrides ds).getD (c + 1) 0 - 1) +
        ds.getD (c + 1) 0 * 1 =
        ds.getD (c + 1) 0 * (contStrides ds).getD (c + 1) 0 := by
      rw [← Nat.mul_add]
      congr 1
      omega
    rw [hsplit, hσ]
    omega

theorem RB_lt_sigma (ds : List Nat) (x : Nat) (hpos : ∀ d ∈ ds, 0 < d)
    (c : Nat) (hc : c < ds.length) :
    RB ds x c < (contStrides ds).getD c 0 := by
  have h := RB_lt_aux ds x hpos (ds.length - 1 - c) (by omega)
  have heq : ds.length - 1 - (ds.length - 1 - c) = c := by omega
  rwa [heq] at h

theorem step_core (ds : List Nat) (x c : Nat) (hpos : ∀ d ∈ ds, 0 < d)
    (hc1 : c + 1 < ds.length) (R : Nat)
    (hR : R < (contStrides ds).getD (c + 1) 0) :
    (SA ds x (c + 1) + R) % (contStrides ds).getD c 0 =
        mIdx ds x (c + 1) * (contStrides ds).getD (c + 1) 0 + R ∧
      (mIdx ds x (c + 1) * (contStrides ds).getD (c + 1) 0 + R) /
        (contStrides ds).getD (c + 1) 0 = mIdx ds x (c + 1) := by
  have hσ : (contStrides ds).getD c 0 =
      ds.getD (c + 1) 0 * (contStrides ds).getD (c + 1) 0 :=
    contStrides_succ ds c hc1
  have hσ'pos : 0 < (contStrides ds).getD (c + 1) 0 :=
    contStrides_pos ds hpos (c + 1) hc1
  have hm : mIdx ds x (c + 1) < ds.getD (c + 1) 0 := mIdx_lt ds x (c + 1) hpos hc1
  have hD : 0 < ds.getD (c + 1) 0 := by omega
  have hlt : mIdx ds x (c + 1) * (contStrides ds).getD (c + 1) 0 + R <
      (contStrides ds).getD c 0 := by
    have h1 : mIdx ds x (c + 1) * (contStrides ds).getD (c + 1) 0 ≤
        (ds.getD (c + 1) 0 - 1) * (contStrides ds).getD (c + 1) 0 :=
      Nat.mul_le_mul_right _ (by omega)
    have h2 : (ds.getD (c + 1) 0 - 1) * (contStrides ds).getD (c + 1) 0 +
        1 * (contStrides ds).getD (c + 1) 0 =
        ds.getD (c + 1) 0 * (contStrides ds).getD (c + 1) 0 := by
      rw [← Nat.add_mul]
      congr 1
      omega
    omega
  constructor
  · have hdvd : (contStrides ds).getD c 0 ∣ SA ds x c := by
      refine Finset.dvd_sum ?terms
      intro j hj
      have hjc : j ≤ c := by
        have := Finset.mem_range.mp hj
        omega
      exact Dvd.dvd.mul_left (contStrides_dvd ds j c hjc (by omega)) _
    obtain ⟨q, hq⟩ := hdvd
    rw [SA_succ, hq, Nat.add_assoc, Nat.mul_add_mod]
    exact Nat.mod_eq_of_lt (by omega)
  · rw [Nat.add_comm, Nat.add_mul_div_right _ _ hσ'pos, Nat.div_eq_of_lt hR,
      Nat.zero_add]

theorem idxLoopA_run (ds astr : List Nat) (x : Nat) (hpos : ∀ d ∈ ds, 0 < d) :
    ∀ c, c < ds.length →
      idxLoopA (contStrides ds) astr c (SA ds x c, LAcc ds astr x c) =
        (SA ds x 0, LAcc ds astr x 0) := by
  intro c
  induction c with
  | zero => intro _; rfl
  | succ c ih =>
    intro hc1
    simp only [idxLoopA]
    have hσ'pos : 0 < (contStrides ds).getD (c + 1) 0 :=
      contStrides_pos ds hpos (c + 1) hc1
    have hcore := step_core ds x c hpos hc1 0 hσ'pos
    simp only [Nat.add_zero] at hcore
    obtain ⟨hiN, hdiv⟩ := hcore
    rw [hiN, hdiv]
    have hSA := SA_succ ds x c
    have hsub : SA ds x (c + 1) -
        mIdx ds x (c + 1) * (contStrides ds).getD (c + 1) 0 = SA ds x c := by
      omega
    have hL : LAcc ds astr x (c + 1) + mIdx ds x (c + 1) * astr.getD (c + 1) 0 =
        LAcc ds astr x c := by
      rw [LAcc_split ds astr x c hc1]
      omega
    rw [hsub, hL]
    exact ih (by omega)

theorem idxLoopB_run (ds astr : List Nat) (x : Nat) (hpos : ∀ d ∈ ds, 0 < d) :
    ∀ c, c < ds.length →
      idxLoopB (contStrides ds) astr c
          (SA ds x c + RB ds x c, LAcc ds astr x c) =
        (SA ds x 0 + RB ds x 0, LAcc ds astr x 0) := by
  intro c
  induction c with
  | zero => intro _; rfl
  | succ c ih =>
    intro hc1
    simp only [idxLoopB]
    have hRlt : RB ds x (c + 1) < (contStrides ds).getD (c + 1) 0 :=
      RB_lt_sigma ds x hpos (c + 1) hc1
    have hcore := step_core ds x c hpos hc1 (RB ds x (c + 1)) hRlt
    obtain ⟨hiN, hdiv⟩ := hcore
    have hO : SA ds x (c + 1) + RB ds x (c + 1) = SA ds x (c + 1) + RB ds x (c + 1) := rfl
    rw [hiN, hdiv]
    have hSA := SA_succ ds x c
    have hRB := RB_split ds x c hc1
    have hσ'pos : 0 < (contStrides ds).getD (c + 1) 0 :=
      contStrides_pos ds hpos (c + 1) hc1
    have hmul : mIdx ds x (c + 1) * ((contStrides ds).getD (c + 1) 0 - 1) +
        mIdx ds x (c + 1) * 1 =
        mIdx ds x (c + 1) * (contStrides ds).getD (c + 1) 0 := by
      rw [← Nat.mul_add]
      congr 1
      omega
    have hsub : SA ds x (c + 1) + RB ds x (c + 1) - mIdx ds x (c + 1) =
        SA ds x c + RB ds x c := by
      omega
    have hL : LAcc ds astr x (c + 1) + mIdx ds x (c + 1) * astr.getD (c + 1) 0 =
        LAcc ds astr x c := by
      rw [LAcc_split ds astr x c hc1]
      omega
    rw [hsub, hL]
    exact ih (by omega)

theorem offA_eq (ds astr : List Nat) (x : Nat) (hne : ds ≠ [])
    (hpos : ∀ d ∈ ds, 0 < d) (hx : x < ds.prod)
    (halen : astr.length = ds.length) :
    offA (contStrides ds) astr x = dot (multiIndex ds x) astr := by
  have hr : 0 < ds.length := List.length_pos.mpr hne
  have hlen1 : ds.length - 1 + 1 = ds.length := by omega
  have hSAtop : SA ds x (ds.length - 1) = x := by
    unfold SA
    rw [hlen1]
    exact sum_mIdx_eq ds x hpos hx
  have hLtop : LAcc ds astr x (ds.length - 1) = 0 := by
    unfold LAcc
    rw [hlen1, Finset.Ico_self, Finset.sum_empty]
  have hrun := idxLoopA_run ds astr x hpos (ds.length - 1) (by omega)
  rw [hSAtop, hLtop] at hrun
  unfold offA
  rw [contStrides_length, hrun]
  have hσ0pos : 0 < (contStrides ds).getD 0 0 := contStrides_pos ds hpos 0 hr
  have hSA0 : SA ds x 0 = mIdx ds x 0 * (contStrides ds).getD 0 0 := by
    unfold SA
    rw [Finset.sum_range_one]
  rw [hSA0]
  simp only
  rw [Nat.mul_div_cancel _ hσ0pos]
  rw [dot_eq_sum_getD (multiIndex ds x) astr ds.length (multiIndex_length ds x) halen]
  rw [Finset.sum_congr rfl
    (fun j hj => by rw [multiIndex_getD ds x j (Finset.mem_range.mp hj)])]
  rw [Finset.range_eq_Ico, Finset.sum_eq_sum_Ico_succ_bot hr]
  unfold LAcc
  rw [Nat.zero_add]
  omega

theorem offB_eq (ds astr : List Nat) (x : Nat) (hne : ds ≠ [])
    (hpos : ∀ d ∈ ds, 0 < d) (hx : x < ds.prod)
    (halen : astr.length = ds.length) :
    offB (contStrides ds) astr x = dot (multiIndex ds x) astr := by
  have hr : 0 < ds.length := List.length_pos.mpr hne
  have hlen1 : ds.length - 1 + 1 = ds.length := by omega
  have hSAtop : SA ds x (ds.length - 1) = x := by
    unfold SA
    rw [hlen1]
    exact sum_mIdx_eq ds x hpos hx
  have hLtop : LAcc ds astr x (ds.length - 1) = 0 := by
    unfold LAcc
    rw [hlen1, Finset.Ico_self, Finset.sum_empty]
  have hRBtop : RB ds x (ds.length - 1) = 0 := RB_top ds x hne
  have hrun := idxLoopB_run ds astr x hpos (ds.length - 1) (by omega)
  rw [hSAtop, hLtop, hRBtop, Nat.add_zero] at hrun
  unfold offB
  rw [contStrides_length, hrun]
  have hσ0pos : 0 < (contStrides ds).getD 0 0 := contStrides_pos ds hpos 0 hr
  have hSA0 : SA ds x 0 = mIdx ds x 0 * (contStrides ds).getD 0 0 := by
    unfold SA
    rw [Finset.sum_range_one]
  have hRB0 : RB ds x 0 < (contStrides ds).getD 0 0 := RB_lt_sigma ds x hpos 0 hr
  have hdiv0 : (SA ds x 0 + RB ds x 0) / (contStrides ds).getD 0 0 = mIdx ds x 0 := by
    rw [hSA0, Nat.add_comm, Nat.add_mul_div_right _ _ hσ0pos,
      Nat.div_eq_of_lt hRB0, Nat.zero_add]
  simp only
  rw [hdiv0]
  rw [dot_eq_sum_getD (multiIndex ds x) astr ds.length (multiIndex_length ds x) halen]
  rw [Finset.sum_congr rfl
    (fun j hj => by rw [multiIndex_getD ds x j (Finset.mem_range.mp hj)])]
  rw [Finset.range_eq_Ico, Finset.sum_eq_sum_Ico_succ_bot hr]
  unfold LAcc
  rw [Nat.zero_add]
  omega

/-! ### From the multi-operand kernel loops to the single-operand ones -/

theorem idxLoopA_fst_indep (ostr a1 a2 : List Nat) :
    ∀ t O L1 L2,
      (idxLoopA ostr a1 t (O, L1)).1 = (idxLoopA ostr a2 t (O, L2)).1 := by
  intro t
  induction t with
  | zero => intro O L1 L2; rfl
  | succ t ih =>
    intro O L1 L2
    simp only [idxLoopA]
    exact ih _ _ _

theorem idxLoopB_fst_indep (ostr a1 a2 : List Nat) :
    ∀ t O L1 L2,
      (idxLoopB ostr a1 t (O, L1)).1 = (idxLoopB ostr a2 t (O, L2)).1 := by
  intro t
  induction t with
  | zero => intro O L1 L2; rfl
  | succ t ih =>
    intro O L1 L2
    simp only [idxLoopB]
    exact ih _ _ _

theorem vecLoop_proj (ostr ls rs : List Nat) :
    ∀ t O L R,
      vecLoop ostr ls rs t (O, L, R) =
        ((idxLoopA ostr ls t (O, L)).1, (idxLoopA ostr ls t (O, L)).2,
          (idxLoopA ostr rs t (O, R)).2) := by
  intro t
  induction t with
  | zero => intro O L R; rfl
  | succ t ih =>
    intro O L R
    simp only [vecLoop, idxLoopA]
    exact ih _ _ _

theorem func2Loop_proj (ostr s0 s1 : List Nat) :
    ∀ t O I0 I1,
      func2Loop ostr s0 s1 t (O, I0, I1) =
        ((idxLoopB ostr s0 t (O, I0)).1, (idxLoopB ostr s0 t (O, I0)).2,
          (idxLoopB ostr s1 t (O, I1)).2) := by
  intro t
  induction t with
  | zero => intro O I0 I1; rfl
  | succ t ih =>
    intro O I0 I1
    simp only [func2Loop, idxLoopB]
    exact ih _ _ _

theorem whereLoop_proj (ostr cs ts fs : List Nat) :
    ∀ t O C T F,
      whereLoop ostr cs ts fs t (O, C, T, F) =
        ((idxLoopB ostr cs t (O, C)).1, (idxLoopB ostr cs t (O, C)).2,
          (idxLoopB ostr ts t (O, T)).2, (idxLoopB ostr fs t (O, F)).2) := by
  intro t
  induction t with
  | zero => intro O C T F; rfl
  | succ t ih =>
    intro O C T F
    simp only [whereLoop, idxLoopB]
    exact ih _ _ _ _

theorem vector_op_indirect_idx_eq_offA (ostr ls rs : List Nat) (x : Nat) :
    vector_op_indirect_idx ostr ls rs x = (offA ostr ls x, offA ostr rs x) := by
  unfold vector_op_indirect_idx offA
  rw [vecLoop_proj]
  simp only
  rw [idxLoopA_fst_indep ostr ls rs (ostr.length - 1) x 0 0]

theorem func2_indirect_idx_eq_offB (ostr s0 s1 : List Nat) (x : Nat) :
    func2_indirect_idx ostr s0 s1 x = (offB ostr s0 x, offB ostr s1 x) := by
  unfold func2_indirect_idx offB
  rw [func2Loop_proj]
  simp only
  rw [idxLoopB_fst_indep ostr s0 s1 (ostr.length - 1) x 0 0]

theorem where_indirect_idx_eq_offB (ostr cs ts fs : List Nat) (x : Nat) :
    where_indirect_idx ostr cs ts fs x =
      (offB ostr cs x, offB ostr ts x, offB ostr fs x) := by
  unfold where_indirect_idx offB
  rw [whereLoop_proj]
  simp only
  rw [← idxLoopB_fst_indep ostr cs ts (ostr.length - 1) x 0 0,
    ← idxLoopB_fst_indep ostr cs fs (ostr.length - 1) x 0 0]

/-- Claim C2: for each strided kernel variant (`vector_op_indirect`,
`func2_indirect`, `where_indirect`) and every output linear index `x`
under contiguous output strides, the per-operand source offset computed by
the generated kernel equals the dot product of that operand's
broadcast-adjusted strides with the multi-index obtained by mixed-radix
decomposition of `x` over the output's strides. -/
theorem claim_C2_indirect_offsets (ds ls rs cs ts fs : List Nat) (x : Nat)
    (hne : ds ≠ []) (hpos : ∀ d ∈ ds, 0 < d) (hx : x < ds.prod)
    (hls : ls.length = ds.length) (hrs : rs.length = ds.length)
    (hcs : cs.length = ds.length) (hts : ts.length = ds.length)
    (hfs : fs.length = ds.length) :
    vector_op_indirect_idx (jsStrides ds) ls rs x =
        (dot (multiIndex ds x) ls, dot (multiIndex ds x) rs) ∧
      func2_indirect_idx (jsStrides ds) ls rs x =
        (dot (multiIndex ds x) ls, dot (multiIndex ds x) rs) ∧
      where_indirect_idx (jsStrides ds) cs ts fs x =
        (dot (multiIndex ds x) cs, dot (multiIndex ds x) ts,
          dot (multiIndex ds x) fs) := by
  rw [jsStrides_eq_contStrides]
  refine ⟨?v, ?f2, ?w⟩
  · rw [vector_op_indirect_idx_eq_offA, offA_eq ds ls x hne hpos hx hls,
      offA_eq ds rs x hne hpos hx hrs]
  · rw [func2_indirect_idx_eq_offB, offB_eq ds ls x hne hpos hx hls,
      offB_eq ds rs x hne hpos hx hrs]
  · rw [where_indirect_idx_eq_offB, offB_eq ds cs x hne hpos hx hcs,
      offB_eq ds ts x hne hpos hx hts, offB_eq ds fs x hne hpos hx hfs]

/-- Witness for C2 at shape `[2,3,4]`, linear index 17 and concrete
(broadcast-style) operand stride lists. -/
theorem claim_C2_indirect_offsets_witness :
    vector_op_indirect_idx (jsStrides [2, 3, 4]) [12, 4, 1] [0, 4, 0] 17 =
        (dot (multiIndex [2, 3, 4] 17) [12, 4, 1],
          dot (multiIndex [2, 3, 4] 17) [0, 4, 0]) ∧
      func2_indirect_idx (jsStrides [2, 3, 4]) [12, 4, 1] [0, 4, 0] 17 =
        (dot (multiIndex [2, 3, 4] 17) [12, 4, 1],
          dot (multiIndex [2, 3, 4] 17) [0, 4, 0]) ∧
      where_indirect_idx (jsStrides [2, 3, 4]) [12, 4, 1] [0, 0, 1] [4, 0, 0] 17 =
        (dot (multiIndex [2, 3, 4] 17) [12, 4, 1],
          dot (multiIndex [2, 3, 4] 17) [0, 0, 1],
          dot (multiIndex [2, 3, 4] 17) [4, 0, 0]) :=
  claim_C2_indirect_offsets [2, 3, 4] [12, 4, 1] [0, 4, 0] [12, 4, 1] [0, 0, 1]
    [4, 0, 0] 17 (by decide) (by decide) (by decide) (by decide) (by decide)
    (by decide) (by decide) (by decide)

/-- Claim C4: `promoteType` on the four element types returns the common
type on an exact match, `f32` when either side is `f32`, else `f16` when
either side is `f16`, errors exactly on the remaining pairs (which are
precisely the two distinct integer pairings), returns the present type
when one side is absent, and `f32` when both are absent. -/
theorem claim_C4_promoteType (t1 t2 : DType) :
    (promoteType (some t1) (some t2) =
        if t1 = t2 then .ok t1
        else if t1 = .f32 ∨ t2 = .f32 then .ok .f32
        else if t1 = .f16 ∨ t2 = .f16 then .ok .f16
        else .error ()) ∧
      promoteType (some .i32) (some .u32) = .error () ∧
      promoteType (some .u32) (some .i32) = .error () ∧
      promoteType (some t1) none = .ok t1 ∧
      promoteType none (some t2) = .ok t2 ∧
      promoteType none none = .ok .f32 := by
  cases t1 <;> cases t2 <;> simp [promoteType]

/-! ### Characterization of broadcastStrides -/

theorem getD_drop (l : List Nat) (n k : Nat) :
    (l.drop n).getD k 0 = l.getD (n + k) 0 := by
  simp only [List.getD]
  rw [List.get?_drop]

theorem adjustStrides_ok (ss sts ts r : List Nat)
    (h : adjustStrides ss sts ts = .ok r) :
    r = forcedStrides ss sts ts := by
  induction ss generalizing sts ts r with
  | nil =>
    cases sts with
    | nil =>
      cases ts with
      | nil =>
        simp only [adjustStrides] at h
        cases h
        rfl
      | cons t ts => simp [adjustStrides] at h
    | cons st sts => cases ts <;> simp [adjustStrides] at h
  | cons s ss ih =>
    cases sts with
    | nil => cases ts <;> simp [adjustStrides] at h
    | cons st sts =>
      cases ts with
      | nil => simp [adjustStrides] at h
      | cons t ts =>
        simp only [adjustStrides] at h
        by_cases h1 : st = 0 ∨ s = t
        · rw [if_pos h1] at h
          cases hrec : adjustStrides ss sts ts with
          | error e => rw [hrec] at h; cases h
          | ok rr =>
            rw [hrec] at h
            simp only [Except.bind, Except.ok.injEq] at h
            subst h
            have hst : (if s = t then st else 0) = st := by
              rcases h1 with h0 | hst
              · subst h0
                split <;> rfl
              · rw [if_pos hst]
            simp only [forcedStrides, hst]
            rw [ih sts ts rr hrec]
        · rw [if_neg h1] at h
          by_cases h2 : s ≠ 1
          · rw [if_pos h2] at h
            cases h
          · rw [if_neg h2] at h
            push_neg at h2
            cases hrec : adjustStrides ss sts ts with
            | error e => rw [hrec] at h; cases h
            | ok rr =>
              rw [hrec] at h
              simp only [Except.bind, Except.ok.injEq] at h
              subst h
              have hst : (if s = t then st else 0) = 0 := by
                push_neg at h1
                rw [if_neg h1.2]
              simp only [forcedStrides, hst]
              rw [ih sts ts rr hrec]

theorem adjustStrides_error_iff (ss sts ts : List Nat)
    (hl1 : sts.length = ss.length) (hl2 : ts.length = ss.length) :
    adjustStrides ss sts ts = .error () ↔
      ∃ k, k < ss.length ∧ ss.getD k 0 ≠ ts.getD k 0 ∧ ss.getD k 0 ≠ 1 ∧
        sts.getD k 0 ≠ 0 := by
  induction ss generalizing sts ts with
  | nil =>
    cases sts with
    | nil =>
      cases ts with
      | nil => simp [adjustStrides]
      | cons t ts => simp at hl2
    | cons st sts => simp at hl1
  | cons s ss ih =>
    cases sts with
    | nil => simp at hl1
    | cons st sts =>
      cases ts with
      | nil => simp at hl2
      | cons t ts =>
        have hl1' : sts.length = ss.length := by simpa using hl1
        have hl2' : ts.length = ss.length := by simpa using hl2
        constructor
        · intro h
          simp only [adjustStrides] at h
          by_cases h1 : st = 0 ∨ s = t
          · rw [if_pos h1] at h
            cases hrec : adjustStrides ss sts ts with
            | error e =>
              obtain ⟨k, hk, hkk⟩ := (ih sts ts hl1' hl2').mp (by rw [hrec])
              exact ⟨k + 1, by simpa using hk, by simpa using hkk⟩
            | ok rr => rw [hrec] at h; cases h
          · rw [if_neg h1] at h
            by_cases h2 : s ≠ 1
            · push_neg at h1
              refine ⟨0, by simp, ?k0⟩
              simpa using ⟨h1.2, h2, h1.1⟩
            · rw [if_neg h2] at h
              cases hrec : adjustStrides ss sts ts with
              | error e =>
                obtain ⟨k, hk, hkk⟩ := (ih sts ts hl1' hl2').mp (by rw [hrec])
                exact ⟨k + 1, by simpa using hk, by simpa using hkk⟩
              | ok rr => rw [hrec] at h; cases h
        · rintro ⟨k, hk, hbad⟩
          simp only [adjustStrides]
          cases k with
          | zero =>
            simp only [List.getD_cons_zero] at hbad
            rw [if_neg (by tauto), if_pos (by tauto)]
          | succ k =>
            simp only [List.getD_cons_succ] at hbad
            have hrec : adjustStrides ss sts ts = .error () :=
              (ih sts ts hl1' hl2').mpr ⟨k, by simpa using hk, hbad⟩
            rw [hrec]
            by_cases h1 : st = 0 ∨ s = t
            · rw [if_pos h1]
            · rw [if_neg h1]
              by_cases h2 : s ≠ 1
              · rw [if_pos h2]
              · rw [if_neg h2]

theorem forcedStrides_length (ss sts ts : List Nat)
    (hl1 : sts.length = ss.length) (hl2 : ts.length = ss.length) :
    (forcedStrides ss sts ts).length = ss.length := by
  induction ss generalizing sts ts with
  | nil =>
    cases sts <;> cases ts <;> simp_all [forcedStrides]
  | cons s ss ih =>
    cases sts with
    | nil => simp at hl1
    | cons st sts =>
      cases ts with
      | nil => simp at hl2
      | cons t ts =>
        simp only [forcedStrides, List.length_cons]
        rw [ih sts ts (by simpa using hl1) (by simpa using hl2)]

theorem forcedStrides_getD (ss sts ts : List Nat) (k : Nat)
    (hl1 : sts.length = ss.length) (hl2 : ts.length = ss.length)
    (hk : k < ss.length) :
    (forcedStrides ss sts ts).getD k 0 =
      if ss.getD k 0 = ts.getD k 0 then sts.getD k 0 else 0 := by
  induction ss generalizing sts ts k with
  | nil => simp at hk
  | cons s ss ih =>
    cases sts with
    | nil => simp at hl1
    | cons st sts =>
      cases ts with
      | nil => simp at hl2
      | cons t ts =>
        cases k with
        | zero => simp [forcedStrides]
        | succ k =>
          simp only [forcedStrides, List.getD_cons_succ]
          exact ih sts ts k (by simpa using hl1) (by simpa using hl2)
            (by simpa using hk)

theorem broadcastStrides_ok_char (shape strides target l : List Nat)
    (hl : strides.length = shape.length) (hrank : shape.length ≤ target.length)
    (h : broadcastStrides shape strides target = .ok l) :
    l = List.replicate (target.length - shape.length) 0 ++
      forcedStrides shape strides (target.drop (target.length - shape.length)) := by
  unfold broadcastStrides at h
  rw [if_neg (by omega)] at h
  rw [hl] at h
  cases hrec : adjustStrides shape strides (target.drop (target.length - shape.length)) with
  | error e => rw [hrec] at h; cases h
  | ok r =>
    rw [hrec] at h
    cases h
    rw [adjustStrides_ok _ _ _ _ hrec]

theorem broadcastStrides_error_iff (shape strides target : List Nat)
    (hl : strides.length = shape.length) (hrank : shape.length ≤ target.length) :
    broadcastStrides shape strides target = .error () ↔
      ∃ k, k < shape.length ∧
        shape.getD k 0 ≠ target.getD (k + (target.length - shape.length)) 0 ∧
        shape.getD k 0 ≠ 1 ∧ strides.getD k 0 ≠ 0 := by
  unfold broadcastStrides
  rw [if_neg (by omega), hl]
  have hdlen : (target.drop (target.length - shape.length)).length = shape.length := by
    rw [List.length_drop]
    omega
  have hiff := adjustStrides_error_iff shape strides
    (target.drop (target.length - shape.length)) hl hdlen
  constructor
  · intro h
    cases hrec : adjustStrides shape strides (target.drop (target.length - shape.length)) with
    | error e =>
      obtain ⟨k, hk, h1, h2, h3⟩ := hiff.mp (by rw [hrec])
      refine ⟨k, hk, ?bad, h2, h3⟩
      rwa [getD_drop, Nat.add_comm] at h1
    | ok r => rw [hrec] at h; cases h
  · rintro ⟨k, hk, h1, h2, h3⟩
    have herr : adjustStrides shape strides (target.drop (target.length - shape.length)) =
        .error () := by
      refine hiff.mpr ⟨k, hk, ?bad2, h2, h3⟩
      rwa [getD_drop, Nat.add_comm]
    rw [herr]

/-- Claim C5, counterexample to the error clause as stated: the NDArray
with shape `[5]` and custom strides `[0]` broadcast to target shape `[3]`
has an axis whose extent (5) differs from the target extent (3) and is not
1, yet `broadcastStrides` raises no error — the `strides[i] === 0` branch
accepts the axis and returns the zero stride unchanged. -/
theorem claim_C5_counterexample :
    (5 ≠ 3 ∧ 5 ≠ 1) ∧ broadcastStrides [5] [0] [3] = .ok [0] := by
  constructor
  · omega
  · rfl

/-- Claim C5 (amended): for an operand of rank at most the target rank,
a successful `broadcastStrides` returns the operand's strides left-padded
with zeros to the target rank, with the stride at every axis whose extent
differs from the target extent forced to zero (axes with matching extents
keep their stride); and the incompatible-shape error is raised exactly
when some axis has an extent that differs from the target extent, is not
1, AND has a nonzero stride — an axis whose stride is already zero is
accepted regardless of its extent. -/
theorem claim_C5_broadcastStrides (shape strides target : List Nat)
    (hl : strides.length = shape.length) (hrank : shape.length ≤ target.length) :
    (∀ l, broadcastStrides shape strides target = .ok l →
        l.length = target.length ∧
        (∀ k, k < target.length - shape.length → l.getD k 0 = 0) ∧
        (∀ k, k < shape.length →
          l.getD (k + (target.length - shape.length)) 0 =
            if shape.getD k 0 = target.getD (k + (target.length - shape.length)) 0
            then strides.getD k 0 else 0)) ∧
      (broadcastStrides shape strides target = .error () ↔
        ∃ k, k < shape.length ∧
          shape.getD k 0 ≠ target.getD (k + (target.length - shape.length)) 0 ∧
          shape.getD k 0 ≠ 1 ∧ strides.getD k 0 ≠ 0) := by
  constructor
  · intro l hok
    have hchar := broadcastStrides_ok_char shape strides target l hl hrank hok
    have hdlen : (target.drop (target.length - shape.length)).length = shape.length := by
      rw [List.length_drop]
      omega
    have hflen : (forcedStrides shape strides
        (target.drop (target.length - shape.length))).length = shape.length :=
      forcedStrides_length _ _ _ hl hdlen
    subst hchar
    refine ⟨?len, ?pad, ?own⟩
    · rw [List.length_append, List.length_replicate, hflen]
      omega
    · intro k hk
      rw [List.getD_append _ _ _ _ (by simpa using hk)]
      simp [List.getD]
    · intro k hk
      have hoff : k + (target.length - shape.length) =
          (target.length - shape.length) + k := Nat.add_comm _ _
      rw [hoff, List.getD_append_right _ _ _ _ (by simp)]
      simp only [List.length_replicate, Nat.add_sub_cancel_left]
      rw [forcedStrides_getD shape strides _ k hl hdlen hk, getD_drop]
  · exact broadcastStrides_error_iff shape strides target hl hrank

/-- Witness for C5 at a concrete incompatible input: shape `[5]` with the
(nonzero) custom stride `[2]` against target `[3]` throws. -/
theorem claim_C5_broadcastStrides_witness :
    broadcastStrides [5] [2] [3] = .error () :=
  (claim_C5_broadcastStrides [5] [2] [3] (by decide) (by decide)).2.mpr
    ⟨0, by decide, by decide, by decide, by decide⟩

/-! ### Staleness-flag claims -/

/-- Claim C3, counterexample to the invariant as stated: using a fresh
array as a kernel output (`execute` in write-only mode) and then calling
`set` on it leaves BOTH `cpu_dirty` and `gpu_dirty` set — `set` marks the
host side dirty without flushing or clearing the device side. -/
theorem claim_C3_counterexample :
    (applyOp (.set 1 [0]) (applyOp (.exec .writeOnly) (mkArray [1] .f32))).cpu_dirty
        = true ∧
      (applyOp (.set 1 [0]) (applyOp (.exec .writeOnly) (mkArray [1] .f32))).gpu_dirty
        = true := by
  constructor <;> rfl

/-- Claim C3 (amended): after any public operation OTHER than `set` —
`send`, a completed `load`, or use in `execute` under any binding mode —
the two dirty flags are never both set, whatever the prior state of the
array; a `set` on a device-dirty array, however, leaves both flags set
(see the counterexample). -/
theorem claim_C3_no_both_dirty (a : NDA) (op : ArrayOp)
    (h : ∀ v idx, op ≠ .set v idx) :
    ¬((applyOp op a).cpu_dirty = true ∧ (applyOp op a).gpu_dirty = true) := by
  cases op with
  | set v idx => exact absurd rfl (h v idx)
  | send =>
    simp only [applyOp, sendEff]
    by_cases hc : a.cpu_dirty <;> simp [hc]
  | load =>
    simp only [applyOp, loadEff, loadStart, loadFinish]
    by_cases hg : a.gpu_dirty <;> cases hp : a.pending <;> simp [hg, hp]
  | exec m =>
    cases m with
    | readOnly =>
      simp only [applyOp, executeMode, sendEff]
      by_cases hc : a.cpu_dirty <;> simp [hc]
    | writeOnly => simp [applyOp, executeMode]
    | readWrite =>
      simp only [applyOp, executeMode, sendEff]
      by_cases hc : a.cpu_dirty <;> simp [hc]

/-- Witness for C3 (amended) at a concrete array and operation. -/
theorem claim_C3_no_both_dirty_witness :
    ¬((applyOp .send demoGpuDirty).cpu_dirty = true ∧
      (applyOp .send demoGpuDirty).gpu_dirty = true) :=
  claim_C3_no_both_dirty demoGpuDirty .send
    (fun v idx h => ArrayOp.noConfusion h)

/-- Claim C7: a second `send` right after a completed `send` is a no-op
(same state, no further host-to-device copy); a second `load` right after
a completed `load` issues no device-to-host copy and creates no staging
buffer; and a `load` while a previous load is still outstanding returns
the same pending promise with the state unchanged. -/
theorem claim_C7_send_load_idempotent :
    (∀ a : NDA, sendEff (sendEff a) = sendEff a ∧
        (sendEff (sendEff a)).h2d = (sendEff a).h2d) ∧
      (∀ a : NDA, a.pending = none →
        (loadStart (loadFinish (loadStart a).1)).1 = loadFinish (loadStart a).1 ∧
          (loadStart (loadFinish (loadStart a).1)).1.d2h =
            (loadFinish (loadStart a).1).d2h ∧
          (loadStart (loadFinish (loadStart a).1)).1.stagings =
            (loadFinish (loadStart a).1).stagings) ∧
      (∀ (a : NDA) (p : Nat), a.pending = some p → a.gpu_dirty = true →
        loadStart a = (a, some p)) := by
  refine ⟨?send2, ?load2, ?pend⟩
  · intro a
    by_cases hc : a.cpu_dirty <;> simp [sendEff, hc]
  · intro a hp
    by_cases hg : a.gpu_dirty <;> simp [loadStart, loadFinish, hp, hg]
  · intro a p hp hg
    simp [loadStart, hp, hg]

/-- Witness for C7 at concrete arrays. -/
theorem claim_C7_send_load_idempotent_witness :
    sendEff (sendEff demoCpuDirty) = sendEff demoCpuDirty ∧
      (loadStart (loadFinish (loadStart demoGpuDirty).1)).1 =
        loadFinish (loadStart demoGpuDirty).1 ∧
      loadStart demoPending = (demoPending, some 0) :=
  ⟨(claim_C7_send_load_idempotent.1 demoCpuDirty).1,
    (claim_C7_send_load_idempotent.2.1 demoGpuDirty rfl).1,
    claim_C7_send_load_idempotent.2.2 demoPending 0 rfl rfl⟩

/-- Claim C10: passing a host-dirty array to `execute` in write-only mode
(as an operation's output) never copies the pending host data to the
device — `execute` clears `cpu_dirty`, sets `gpu_dirty`, performs no
host-to-device transfer, leaves the host buffer's bytes unchanged, and
leaves the device buffer holding its old data (the un-sent host values are
silently discarded). -/
theorem claim_C10_writeonly_discards (a : NDA) (h : a.cpu_dirty = true) :
    executeMode .writeOnly a = { a with cpu_dirty := false, gpu_dirty := true } ∧
      (executeMode .writeOnly a).cpu = a.cpu ∧
      (executeMode .writeOnly a).gpu = a.gpu ∧
      (executeMode .writeOnly a).h2d = a.h2d ∧
      (executeMode .writeOnly a).cpu_dirty = false ∧
      (executeMode .writeOnly a).gpu_dirty = true :=
  ⟨rfl, rfl, rfl, rfl, rfl, rfl⟩

/-- Witness for C10 at a concrete host-dirty array. -/
theorem claim_C10_writeonly_discards_witness :
    executeMode .writeOnly demoCpuDirty =
        { demoCpuDirty with cpu_dirty := false, gpu_dirty := true } ∧
      (executeMode .writeOnly demoCpuDirty).cpu = demoCpuDirty.cpu ∧
      (executeMode .writeOnly demoCpuDirty).gpu = demoCpuDirty.gpu ∧
      (executeMode .writeOnly demoCpuDirty).h2d = demoCpuDirty.h2d ∧
      (executeMode .writeOnly demoCpuDirty).cpu_dirty = false ∧
      (executeMode .writeOnly demoCpuDirty).gpu_dirty = true :=
  claim_C10_writeonly_discards demoCpuDirty rfl

/-! ### The tree reduction -/

theorem reduceLoop_mod (M : Nat) (a : Nat → Nat) (N L : Nat) :
    ∀ n i v, N - i ≤ n →
      reduceLoop M a N L i v % M = (v + ssum a N L i) % M := by
  intro n
  induction n with
  | zero =>
    intro i v h0
    unfold reduceLoop ssum
    rw [if_neg (by omega), if_neg (by omega)]
    simp
  | succ n ih =>
    intro i v h
    have hmax : 1 ≤ max L 1 := Nat.le_max_right L 1
    by_cases hiN : i < N
    · unfold reduceLoop ssum
      rw [if_pos hiN, if_pos hiN]
      rw [ih (i + max L 1) ((v + a i) % M) (by omega)]
      have h1 : ((v + a i) % M + ssum a N L (i + max L 1)) % M =
          (v + a i + ssum a N L (i + max L 1)) % M :=
        Nat.ModEq.add_right _ (Nat.mod_modEq (v + a i) M)
      rw [h1, Nat.add_assoc]
    · unfold reduceLoop ssum
      rw [if_neg hiN, if_neg hiN]
      simp

theorem reduceLoop_lt (M : Nat) (a : Nat → Nat) (N L : Nat) (hM : 0 < M) :
    ∀ n i v, N - i ≤ n → v < M → reduceLoop M a N L i v < M := by
  intro n
  induction n with
  | zero =>
    intro i v h0 hv
    unfold reduceLoop
    rw [if_neg (by omega)]
    exact hv
  | succ n ih =>
    intro i v h hv
    have hmax : 1 ≤ max L 1 := Nat.le_max_right L 1
    by_cases hiN : i < N
    · unfold reduceLoop
      rw [if_pos hiN]
      exact ih (i + max L 1) ((v + a i) % M) (by omega) (Nat.mod_lt _ hM)
    · unfold reduceLoop
      rw [if_neg hiN]
      exact hv

theorem stride_dvd_shift (L N i : Nat) (hL : 1 ≤ L) (hiN : i < N) :
    (i + L ≤ N ∧ L ∣ N - i - L) ↔ (i ≤ N ∧ L ∣ N - i) := by
  constructor
  · rintro ⟨hle, m, hm⟩
    refine ⟨by omega, m + 1, ?eq⟩
    have : L * (m + 1) = L * m + L := by ring
    omega
  · rintro ⟨hle, m, hm⟩
    have hmpos : 1 ≤ m := by
      rcases Nat.eq_zero_or_pos m with h0 | h1
      · subst h0
        omega
      · exact h1
    have hLm : L * 1 ≤ L * m := Nat.mul_le_mul_left L hmpos
    have hLm1 : L * (m - 1) = L * m - L * 1 := by
      rw [Nat.mul_sub]
    refine ⟨by omega, m - 1, by omega⟩

theorem ssum_succN (a : Nat → Nat) (L : Nat) (hL : 1 ≤ L) (N : Nat) :
    ∀ n i, N + 1 - i ≤ n →
      ssum a (N + 1) L i =
        ssum a N L i + (if i ≤ N ∧ L ∣ N - i then a N else 0) := by
  have hmax : max L 1 = L := Nat.max_eq_left hL
  intro n
  induction n with
  | zero =>
    intro i h0
    unfold ssum
    rw [if_neg (by omega), if_neg (by omega), if_neg (by omega)]
  | succ n ih =>
    intro i h
    rcases Nat.lt_trichotomy i N with hiN | hiN | hiN
    · unfold ssum
      rw [if_pos (by omega), if_pos hiN, hmax]
      rw [ih (i + L) (by omega)]
      have hiff := stride_dvd_shift L N i hL hiN
      by_cases hc : i ≤ N ∧ L ∣ N - i
      · rw [if_pos (by
          have : N - (i + L) = N - i - L := by omega
          rw [this]
          exact hiff.mpr hc), if_pos hc]
        omega
      · rw [if_neg (by
          intro hcon
          have : N - (i + L) = N - i - L := by omega
          rw [this] at hcon
          exact hc (hiff.mp hcon)), if_neg hc]
        omega
    · have hidvd : i ≤ N ∧ L ∣ N - i :=
        ⟨le_of_eq hiN, by rw [hiN, Nat.sub_self]; exact dvd_zero L⟩
      unfold ssum
      rw [if_pos (by omega), if_neg (by omega), hmax, if_pos hidvd]
      have hrest : ssum a (N + 1) L (i + L) = 0 := by
        unfold ssum
        rw [if_neg (by omega)]
      rw [hrest, hiN]
      omega
    · unfold ssum
      rw [if_neg (by omega), if_neg (by omega), if_neg (by omega)]

theorem ssum_partition (a : Nat → Nat) (L : Nat) (hL : 1 ≤ L) (N : Nat) :
    ∑ k ∈ Finset.range L, ssum a N L k = ∑ i ∈ Finset.range N, a i := by
  induction N with
  | zero =>
    rw [Finset.sum_congr rfl (fun k _ => by
      unfold ssum
      rw [if_neg (by omega)])]
    simp
  | succ N ihN =>
    rw [Finset.sum_congr rfl
      (fun k _ => ssum_succN a L hL N (N + 1 - k) k le_rfl)]
    rw [Finset.sum_add_distrib, ihN, Finset.sum_range_succ]
    congr 1
    have huniq : ∀ k ∈ Finset.range L, (k ≤ N ∧ L ∣ N - k) ↔ k = N % L := by
      intro k hk
      have hkL : k < L := Finset.mem_range.mp hk
      constructor
      · rintro ⟨hle, m, hm⟩
        have hN : N = k + L * m := by omega
        rw [hN, Nat.add_mul_mod_self_left, Nat.mod_eq_of_lt hkL]
      · intro hkk
        subst hkk
        have h1 : N % L + L * (N / L) = N := Nat.mod_add_div N L
        exact ⟨Nat.mod_le N L, N / L, by omega⟩
    rw [Finset.sum_congr rfl (fun k hk => by rw [if_congr (huniq k hk) rfl rfl])]
    rw [Finset.sum_ite_eq' (Finset.range L) (N % L) (fun _ => a N)]
    rw [if_pos (Finset.mem_range.mpr (Nat.mod_lt N (by omega)))]

theorem list_range_map_sum (f : Nat → Nat) (n : Nat) :
    ((List.range n).map f).sum = ∑ i ∈ Finset.range n, f i := by
  induction n with
  | zero => simp
  | succ n ih => rw [List.range_succ, List.map_append, List.sum_append,
      Finset.sum_range_succ, ih]; simp

theorem sum_range_getD (data : List Nat) :
    ∑ i ∈ Finset.range data.length, data.getD i 0 = data.sum := by
  induction data with
  | nil => simp
  | cons d l ih =>
    simp only [List.length_cons]
    rw [Finset.sum_range_succ']
    simp only [List.getD_cons_succ, List.getD_cons_zero]
    rw [ih, List.sum_cons]
    omega

theorem reduceLane_mod (M : Nat) (a : Nat → Nat) (N L k : Nat)
    (hk : k < N) :
    reduceLane M a N L k % M = ssum a N L k % M := by
  unfold reduceLane
  rw [reduceLoop_mod M a N L (N - (k + max L 1)) (k + max L 1) (a k) le_rfl]
  have : ssum a N L k = a k + ssum a N L (k + max L 1) := by
    conv_lhs => unfold ssum
    rw [if_pos hk]
  rw [this]

theorem reducePass_sum_mod (M : Nat) (data : List Nat) (L : Nat)
    (hM : 0 < M) (hL : 1 ≤ L) (hLN : L ≤ data.length) :
    (reducePass M data L).sum % M = data.sum % M := by
  unfold reducePass
  rw [list_range_map_sum]
  rw [Finset.sum_nat_mod]
  rw [Finset.sum_congr rfl (fun k hk =>
    reduceLane_mod M (fun i => data.getD i 0) data.length L k
      (lt_of_lt_of_le (Finset.mem_range.mp hk) hLN))]
  rw [← Finset.sum_nat_mod]
  rw [ssum_partition _ L hL data.length, sum_range_getD]

theorem reducePass_lt (M : Nat) (data : List Nat) (L : Nat) (hM : 0 < M)
    (hLN : L ≤ data.length) (hall : ∀ v ∈ data, v < M) :
    ∀ v ∈ reducePass M data L, v < M := by
  intro v hv
  unfold reducePass at hv
  simp only [List.mem_map, List.mem_range] at hv
  obtain ⟨k, hk, hv⟩ := hv
  subst hv
  have hkN : k < data.length := lt_of_lt_of_le hk hLN
  have hstart : data.getD k 0 < M := by
    rw [List.getD_eq_getElem data 0 hkN]
    exact hall _ (List.getElem_mem hkN)
  unfold reduceLane
  exact reduceLoop_lt M _ data.length L hM (data.length - (k + max L 1)) _ _
    le_rfl hstart

theorem reduce_op_sum_aux (n : Nat) :
    ∀ data : List Nat, data.length ≤ n → data ≠ [] →
      (∀ v ∈ data, v < 2 ^ 32) →
      _reduce_op data = [data.sum % 2 ^ 32] := by
  induction n with
  | zero =>
    intro data hlen hne _
    have : data.length = 0 := by omega
    exact absurd (List.length_eq_zero.mp this) hne
  | succ n ih =>
    intro data hlen hne hall
    have hM : (0 : Nat) < 2 ^ 32 := Nat.two_pow_pos 32
    have hN : 0 < data.length := List.length_pos.mpr hne
    by_cases hL1 : reduceLength data.length = 1
    · unfold _reduce_op
      rw [if_pos hL1, hL1]
      unfold reducePass
      have hr1 : List.range 1 = [0] := rfl
      rw [hr1]
      simp only [List.map_cons, List.map_nil]
      have hlane_mod : reduceLane (2 ^ 32) (fun i => data.getD i 0)
          data.length 1 0 % 2 ^ 32 =
          ssum (fun i => data.getD i 0) data.length 1 0 % 2 ^ 32 :=
        reduceLane_mod _ _ _ _ 0 hN
      have hs : ssum (fun i => data.getD i 0) data.length 1 0 = data.sum := by
        have hpart := ssum_partition (fun i => data.getD i 0) 1 le_rfl data.length
        rw [Finset.sum_range_one] at hpart
        rw [hpart, sum_range_getD]
      have hstart : data.getD 0 0 < 2 ^ 32 := by
        rw [List.getD_eq_getElem data 0 hN]
        exact hall _ (List.getElem_mem hN)
      have hlt : reduceLane (2 ^ 32) (fun i => data.getD i 0)
          data.length 1 0 < 2 ^ 32 := by
        unfold reduceLane
        exact reduceLoop_lt _ _ _ _ hM _ _ _ le_rfl hstart
      rw [← Nat.mod_eq_of_lt hlt, hlane_mod, hs]
    · have h64 : 64 < data.length := by
        by_contra hle
        exact hL1 (by unfold reduceLength; rw [if_neg (by omega)])
      have hLpos : 1 ≤ reduceLength data.length := by
        unfold reduceLength
        rw [if_pos h64]
        exact le_min (Nat.one_le_two_pow) (by omega)
      have hL64 : reduceLength data.length ≤ 64 := by
        unfold reduceLength
        rw [if_pos h64]
        exact min_le_right _ _
      have hLN : reduceLength data.length ≤ data.length := by omega
      unfold _reduce_op
      rw [if_neg hL1]
      have hpl : (reducePass (2 ^ 32) data (reduceLength data.length)).length =
          reduceLength data.length := by
        unfold reducePass
        simp
      have hpne : reducePass (2 ^ 32) data (reduceLength data.length) ≠ [] := by
        intro hcon
        rw [hcon] at hpl
        simp at hpl
        omega
      have hpall := reducePass_lt (2 ^ 32) data (reduceLength data.length)
        hM hLN hall
      rw [ih _ (by omega) hpne hpall]
      rw [reducePass_sum_mod (2 ^ 32) data (reduceLength data.length) hM hLpos hLN]

/-- Claim C6: for every nonempty integer-typed (`u32`/`i32`) array without
custom strides, `sum` yields a single-element array holding the exact
integer sum of all elements modulo `2 ^ 32`, for both the single-pass path
(`n ≤ 64`) and the multi-pass path (`n > 64`); totality of `_reduce_op`
is the termination of the pass loop for every `n`. -/
theorem claim_C6_reduce_sum (data : List Nat) (hne : data ≠ [])
    (hall : ∀ v ∈ data, v < 2 ^ 32) :
    _reduce_op data = [data.sum % 2 ^ 32] :=
  reduce_op_sum_aux data.length data le_rfl hne hall

/-- Witness for C6: 300 elements of value 2 (multi-pass) sum to exactly
600, and 32 elements of value 2 (single-pass) sum to exactly 64. -/
theorem claim_C6_reduce_sum_witness :
    _reduce_op (List.replicate 300 2) = [600] ∧
      _reduce_op (List.replicate 32 2) = [64] := by
  constructor
  · rw [claim_C6_reduce_sum (List.replicate 300 2)
      (by intro h; have hcongr := congrArg List.length h; simp at hcongr)
      (by intro v hv; rw [List.eq_of_mem_replicate hv]; omega)]
    norm_num [List.sum_replicate]
  · rw [claim_C6_reduce_sum (List.replicate 32 2)
      (by intro h; have hcongr := congrArg List.length h; simp at hcongr)
      (by intro v hv; rw [List.eq_of_mem_replicate hv]; omega)]
    norm_num [List.sum_replicate]

/-! ### Shape broadcasting facts -/

theorem bAxis_one (x : Nat) : bAxis 1 x = .ok x := by
  unfold bAxis
  by_cases h : (1 : Nat) = x ∨ x = 1
  · rw [if_pos h]
    have hx : x = 1 := by
      rcases h with h | h
      · omega
      · exact h
    rw [hx]
  · rw [if_neg h, if_pos rfl]

theorem bAxis_ok_cases (x y e : Nat) (h : bAxis x y = .ok e) :
    (e = x ∨ e = y) ∧ (x = e ∨ x = 1) ∧ (y = e ∨ y = 1) := by
  unfold bAxis at h
  by_cases h1 : x = y ∨ y = 1
  · rw [if_pos h1] at h
    cases h
    rcases h1 with h1 | h1
    · exact ⟨Or.inl rfl, Or.inl rfl, Or.inl h1.symm⟩
    · exact ⟨Or.inl rfl, Or.inl rfl, Or.inr h1⟩
  · rw [if_neg h1] at h
    by_cases h2 : x = 1
    · rw [if_pos h2] at h
      cases h
      exact ⟨Or.inr rfl, Or.inr h2, Or.inl rfl⟩
    · rw [if_neg h2] at h
      exact Except.noConfusion h

theorem bcastRev_spec (xs : List Nat) :
    ∀ ys r, bcastRev xs ys = .ok r →
      r.length = max xs.length ys.length ∧
      (∀ k, k < xs.length → xs.getD k 0 = r.getD k 0 ∨ xs.getD k 0 = 1) ∧
      (∀ k, k < ys.length → ys.getD k 0 = r.getD k 0 ∨ ys.getD k 0 = 1) ∧
      (∀ v ∈ r, v ∈ xs ∨ v ∈ ys) := by
  induction xs with
  | nil =>
    intro ys r h
    simp only [bcastRev] at h
    cases h
    refine ⟨by simp, ?x0, ?y0, ?mem0⟩
    · intro k hk
      simp at hk
    · intro k hk
      exact Or.inl rfl
    · intro v hv
      exact Or.inr hv
  | cons x xs ih =>
    intro ys r h
    cases ys with
    | nil =>
      simp only [bcastRev] at h
      cases h
      refine ⟨by simp, ?x1, ?y1, ?mem1⟩
      · intro k hk
        exact Or.inl rfl
      · intro k hk
        simp at hk
      · intro v hv
        exact Or.inl hv
    | cons y ys =>
      simp only [bcastRev, bAxis_one] at h
      cases ha2 : bAxis x y with
      | error e => rw [ha2] at h; exact Except.noConfusion h
      | ok a2 =>
        rw [ha2] at h
        cases hrec : bcastRev xs ys with
        | error e => rw [hrec] at h; exact Except.noConfusion h
        | ok rr =>
          rw [hrec] at h
          cases h
          obtain ⟨he, hx1, hy1⟩ := bAxis_ok_cases x y a2 ha2
          obtain ⟨hlen, hxs, hys, hmem⟩ := ih ys rr hrec
          refine ⟨?len, ?x, ?y, ?mem⟩
          · simp only [List.length_cons, hlen]
            omega
          · intro k hk
            cases k with
            | zero =>
              simpa using hx1
            | succ k =>
              simpa using hxs k (by simpa using hk)
          · intro k hk
            cases k with
            | zero =>
              simpa using hy1
            | succ k =>
              simpa using hys k (by simpa using hk)
          · intro v hv
            rcases List.mem_cons.mp hv with hv | hv
            · subst hv
              rcases he with he | he
              · exact Or.inl (he ▸ List.mem_cons_self x xs)
              · exact Or.inr (he ▸ List.mem_cons_self y ys)
            · rcases hmem v hv with hm | hm
              · exact Or.inl (List.mem_cons_of_mem x hm)
              · exact Or.inr (List.mem_cons_of_mem y hm)

theorem getD_reverse (l : List Nat) (k : Nat) (hk : k < l.length) :
    l.reverse.getD k 0 = l.getD (l.length - 1 - k) 0 := by
  have hk2 : k < l.reverse.length := by simpa using hk
  have hk3 : l.length - 1 - k < l.length := by omega
  rw [List.getD_eq_getElem _ 0 hk2, List.getD_eq_getElem _ 0 hk3]
  rw [List.getElem_reverse]

theorem broadcastShapes2_spec (s1 s2 o : List Nat)
    (h : broadcastShapes2 s1 s2 = .ok o) :
    o.length = max s1.length s2.length ∧ ShapeCompat s1 o ∧ ShapeCompat s2 o ∧
      ((∀ v ∈ s1, 0 < v) → (∀ v ∈ s2, 0 < v) → ∀ v ∈ o, 0 < v) := by
  unfold broadcastShapes2 at h
  cases hrev : bcastRev s1.reverse s2.reverse with
  | error e => rw [hrev] at h; exact Except.noConfusion h
  | ok r =>
    rw [hrev] at h
    cases h
    obtain ⟨hlen, hxs, hys, hmem⟩ := bcastRev_spec s1.reverse s2.reverse r hrev
    simp only [List.length_reverse] at hlen
    have holen : r.reverse.length = max s1.length s2.length := by
      simpa using hlen
    have hcompat : ∀ s : List Nat, s.length ≤ r.length →
        (∀ k, k < s.reverse.length →
          s.reverse.getD k 0 = r.getD k 0 ∨ s.reverse.getD k 0 = 1) →
        ShapeCompat s r.reverse := by
      intro s hsle hs
      refine ⟨by simpa using hsle, ?axes⟩
      intro k hk
      have hk1 : s.length - 1 - k < s.reverse.length := by
        simp only [List.length_reverse]
        omega
      have hrev1 : s.reverse.getD (s.length - 1 - k) 0 = s.getD k 0 := by
        rw [getD_reverse s (s.length - 1 - k) (by omega)]
        congr 1
        omega
      have hrev2 : r.getD (s.length - 1 - k) 0 =
          r.reverse.getD (k + (r.reverse.length - s.length)) 0 := by
        have hj : k + (r.reverse.length - s.length) < r.length := by
          simp only [List.length_reverse]
          omega
        rw [getD_reverse r (k + (r.reverse.length - s.length)) hj]
        congr 1
        simp only [List.length_reverse]
        omega
      have := hs (s.length - 1 - k) hk1
      rw [hrev1, hrev2] at this
      exact this
    refine ⟨holen, ?c1, ?c2, ?pos⟩
    · exact hcompat s1 (by omega) (by simpa using hxs)
    · exact hcompat s2 (by omega) (by simpa using hys)
    · intro hp1 hp2 v hv
      rcases hmem v (List.mem_reverse.mp hv) with hm | hm
      · exact hp1 v (List.mem_reverse.mp hm)
      · exact hp2 v (List.mem_reverse.mp hm)

theorem broadcastStrides_isOk (shape strides target : List Nat)
    (hl : strides.length = shape.length) (hcompat : ShapeCompat shape target) :
    ∃ l, broadcastStrides shape strides target = .ok l := by
  cases hres : broadcastStrides shape strides target with
  | ok l => exact ⟨l, rfl⟩
  | error e =>
    cases e
    obtain ⟨k, hk, h1, h2, _⟩ :=
      (broadcastStrides_error_iff shape strides target hl hcompat.1).mp hres
    rcases hcompat.2 k hk with hc | hc
    · exact absurd hc h1
    · exact absurd hc h2

theorem dot_replicate_zero (d : Nat) (idx F : List Nat) (hd : d ≤ idx.length) :
    dot idx (List.replicate d 0 ++ F) = dot (idx.drop d) F := by
  induction d generalizing idx with
  | zero => simp
  | succ d ih =>
    cases idx with
    | nil => simp at hd
    | cons i is =>
      simp only [List.replicate_succ, List.cons_append, List.drop_succ_cons]
      rw [dot_cons_cons]
      rw [ih is (by simpa using hd)]
      omega

theorem dot_forced (ss : List Nat) :
    ∀ sts ts is : List Nat,
      sts.length = ss.length → ts.length = ss.length → is.length = ss.length →
      (∀ k, k < ss.length → ss.getD k 0 = ts.getD k 0 ∨ ss.getD k 0 = 1) →
      (∀ k, k < ss.length → is.getD k 0 < ts.getD k 0) →
      dot is (forcedStrides ss sts ts) =
        dot (List.zipWith (fun d i => if d = 1 then 0 else i) ss is) sts := by
  induction ss with
  | nil =>
    intro sts ts is h1 h2 h3 _ _
    rw [List.length_eq_zero.mp h3]
    simp [forcedStrides, dot]
  | cons s ss ih =>
    intro sts ts is h1 h2 h3 hc hb
    cases sts with
    | nil => simp at h1
    | cons st sts =>
      cases ts with
      | nil => simp at h2
      | cons t ts =>
        cases is with
        | nil => simp at h3
        | cons i is =>
          simp only [forcedStrides, List.zipWith_cons_cons]
          rw [dot_cons_cons, dot_cons_cons]
          have hc0 : s = t ∨ s = 1 := by simpa using hc 0 (by simp)
          have hb0 : i < t := by simpa using hb 0 (by simp)
          have hrec := ih sts ts is (by simpa using h1) (by simpa using h2)
            (by simpa using h3)
            (fun k hk => by simpa using hc (k + 1) (by simpa using Nat.succ_lt_succ hk))
            (fun k hk => by simpa using hb (k + 1) (by simpa using Nat.succ_lt_succ hk))
          rw [hrec]
          congr 1
          by_cases hs1 : s = 1
          · rw [if_pos hs1]
            by_cases hst2 : s = t
            · rw [if_pos hst2]
              have hi0 : i = 0 := by omega
              subst hi0
              simp
            · rw [if_neg hst2]
              simp
          · rcases hc0 with hst | hst
            · rw [if_pos hst, if_neg hs1]
            · exact absurd hst hs1

theorem zip_resolve_self (ds : List Nat) :
    ∀ is : List Nat, is.length = ds.length →
      (∀ k, k < ds.length → is.getD k 0 < ds.getD k 0) →
      List.zipWith (fun d i => if d = 1 then 0 else i) ds is = is := by
  induction ds with
  | nil =>
    intro is h1 _
    rw [List.length_eq_zero.mp h1]
    rfl
  | cons d ds ih =>
    intro is h1 hb
    cases is with
    | nil => simp at h1
    | cons i is =>
      simp only [List.zipWith_cons_cons]
      have hb0 : i < d := by simpa using hb 0 (by simp)
      rw [ih is (by simpa using h1)
        (fun k hk => by simpa using hb (k + 1) (by simpa using Nat.succ_lt_succ hk))]
      congr 1
      by_cases hd1 : d = 1
      · rw [if_pos hd1]
        omega
      · rw [if_neg hd1]

theorem dot_bstrides (shape strides target idx l : List Nat)
    (hl : strides.length = shape.length)
    (hcompat : ShapeCompat shape target)
    (hilen : idx.length = target.length)
    (hb : ∀ k, k < target.length → idx.getD k 0 < target.getD k 0)
    (hok : broadcastStrides shape strides target = .ok l) :
    dot idx l = dot (resolveIdx shape target idx) strides := by
  have hrank : shape.length ≤ target.length := hcompat.1
  have hchar := broadcastStrides_ok_char shape strides target l hl hcompat.1 hok
  subst hchar
  rw [dot_replicate_zero (target.length - shape.length) idx _ (by omega)]
  unfold resolveIdx
  have hdl : (target.drop (target.length - shape.length)).length = shape.length := by
    rw [List.length_drop]
    omega
  have hil : (idx.drop (target.length - shape.length)).length = shape.length := by
    rw [List.length_drop]
    omega
  refine dot_forced shape strides _ _ hl hdl hil ?compat ?bnd
  · intro k hk
    rw [getD_drop]
    rcases hcompat.2 k hk with hc | hc
    · rw [Nat.add_comm] at hc
      exact Or.inl hc
    · exact Or.inr hc
  · intro k hk
    rw [getD_drop, getD_drop]
    exact hb _ (by omega)

theorem sendEff_gpu (a : NDA) : (sendEff a).gpu = a.val := by
  unfold sendEff NDA.val
  by_cases hc : a.cpu_dirty <;> simp [hc]

theorem loadEff_cpu (a : NDA) (hg : a.gpu_dirty = true) (hp : a.pending = none) :
    (loadEff a).cpu = a.gpu := by
  unfold loadEff loadStart loadFinish
  simp [hg, hp]

theorem broadcastStrides_ok_length (shape strides target l : List Nat)
    (hl : strides.length = shape.length) (hrank : shape.length ≤ target.length)
    (hok : broadcastStrides shape strides target = .ok l) :
    l.length = target.length := by
  rw [broadcastStrides_ok_char shape strides target l hl hrank hok]
  rw [List.length_append, List.length_replicate]
  rw [forcedStrides_length shape strides _ hl (by rw [List.length_drop]; omega)]
  omega

/-- Claim C1, counterexample: two `i32` operands (compatible shapes and
element types) holding 2^31 - 1 and 1.  `add` then an awaited `load`
yields -2^31 at the result's only index — the generated `i32` kernel's
`+` wraps modulo 2^32 — and not the exact sum 2^31 of the two operands'
values that the claim asserts. -/
theorem claim_C1_counterexample :
    vectorOpAddW wrapI32 cexA cexB = .ok cexRes ∧
    (loadEff cexRes).cpu (dot [0] cexRes.strides) = -(2 ^ 31) ∧
    cexA.val (dot (resolveIdx cexA.shape [1] [0]) cexA.strides) +
      cexB.val (dot (resolveIdx cexB.shape [1] [0]) cexB.strides) = 2 ^ 31 ∧
    (loadEff cexRes).cpu (dot [0] cexRes.strides) ≠
      cexA.val (dot (resolveIdx cexA.shape [1] [0]) cexA.strides) +
        cexB.val (dot (resolveIdx cexB.shape [1] [0]) cexB.strides) := by
  refine ⟨rfl, by decide, by decide, by decide⟩

/-- Claim C1, amended: for every pair of NDArrays of one shared integer
element type (`i32` or `u32`) with broadcast-compatible shapes — so every
`conv` in the generated kernel is the empty cast and the WGSL `+` is the
wrapping 32-bit addition of that dtype — `add(a, b)` followed by an
awaited `load()` yields, at every multi-index of the broadcast result
shape, the sum of `a`'s and `b`'s values at their broadcast-resolved
source indices wrapped to the element type (two's-complement into
[-2^31, 2^31) for `i32`, modulo 2^32 for `u32`); this is the exact sum
whenever that sum is representable in the element type, and differs from
it at reachable overflow inputs. -/
theorem claim_C1_add_broadcast (w : Int → Int) (dt : DType)
    (a b res : NDA) (oshape idx : List Nat)
    (hw : (dt = DType.i32 ∧ w = wrapI32) ∨ (dt = DType.u32 ∧ w = wrapU32))
    (hda : a.dtype = dt) (hdb : b.dtype = dt)
    (ha : WF a) (hb : WF b)
    (hsh : broadcastShapes2 a.shape b.shape = .ok oshape)
    (hres : vectorOpAddW w a b = .ok res)
    (hilen : idx.length = oshape.length)
    (hbnd : ∀ k, k < oshape.length → idx.getD k 0 < oshape.getD k 0) :
    (loadEff res).cpu (dot idx res.strides) =
      w (a.val (dot (resolveIdx a.shape oshape idx) a.strides) +
          b.val (dot (resolveIdx b.shape oshape idx) b.strides)) := by
  obtain ⟨hane, hapos, halen, hacont⟩ := ha
  obtain ⟨hbne, hbpos, hblen, hbcont⟩ := hb
  obtain ⟨holen, hca, hcb, hposo⟩ := broadcastShapes2_spec a.shape b.shape oshape hsh
  have hopos : ∀ v ∈ oshape, 0 < v := hposo hapos hbpos
  have halpos : 0 < a.shape.length := List.length_pos.mpr hane
  have hone : oshape ≠ [] := by
    intro hcon
    rw [hcon] at holen
    simp at holen
    omega
  have hxlt : dot idx (jsStrides oshape) < oshape.prod := by
    rw [jsStrides_eq_contStrides]
    exact dot_lt_prod oshape idx hilen hbnd
  unfold vectorOpAddW at hres
  split at hres
  · exact Except.noConfusion hres
  · rename_i dtp heqpt
    split at hres
    · exact Except.noConfusion hres
    · rename_i oshape2 heqsh
      rw [hsh] at heqsh
      have hosq := Except.ok.inj heqsh
      subst hosq
      have hosh : (mkArray oshape dtp).shape = oshape := rfl
      have holen2 : (mkArray oshape dtp).len = oshape.prod := by
        unfold NDA.len mkArray
        simp
      split at hres
      · -- successful run: hres names the run state, heq3 the run equation
        rename_i st heq3
        have hresv : st.2.2 = res := Except.ok.inj hres
        unfold vectorOpRun at heq3
        split at heq3
        · simp at heq3
        · rename_i dt2 heqpt2
          split at heq3
          · simp at heq3
          · rename_i hocustom
            split at heq3
            · -- strided kernel
              rename_i hus
              split at heq3
              · simp at heq3
              · rename_i ls hls
                split at heq3
                · simp at heq3
                · rename_i rs hrs
                  rw [hosh] at hls hrs
                  obtain ⟨hst, -⟩ := Prod.mk.inj heq3
                  have hfin : res =
                      { mkArray oshape dtp with
                          cpu_dirty := false
                          gpu_dirty := true
                          gpu := fun x =>
                            if x < (mkArray oshape dtp).len then
                              vecIndirectVal (fun x y => w (x + y)) (sendEff a).gpu
                                (sendEff b).gpu (mkArray oshape dtp).strides ls rs x
                            else (mkArray oshape dtp).gpu x } := by
                    rw [← hresv, ← hst]
                  subst hfin
                  rw [loadEff_cpu _ rfl rfl]
                  show (if dot idx (jsStrides oshape) < (mkArray oshape dtp).len then
                      vecIndirectVal (fun x y => w (x + y)) (sendEff a).gpu
                        (sendEff b).gpu
                        (jsStrides oshape) ls rs (dot idx (jsStrides oshape))
                    else (0 : Int)) = _
                  rw [holen2, if_pos hxlt]
                  unfold vecIndirectVal
                  have hlsl : ls.length = oshape.length :=
                    broadcastStrides_ok_length a.shape a.strides oshape ls halen
                      hca.1 hls
                  have hrsl : rs.length = oshape.length :=
                    broadcastStrides_ok_length b.shape b.strides oshape rs hblen
                      hcb.1 hrs
                  rw [jsStrides_eq_contStrides]
                  rw [vector_op_indirect_idx_eq_offA]
                  simp only
                  have hxlt2 : dot idx (contStrides oshape) < oshape.prod := by
                    rw [← jsStrides_eq_contStrides]
                    exact hxlt
                  rw [offA_eq oshape ls (dot idx (contStrides oshape)) hone hopos
                      hxlt2 hlsl,
                    offA_eq oshape rs (dot idx (contStrides oshape)) hone hopos
                      hxlt2 hrsl]
                  rw [multiIndex_dot oshape idx hopos hilen hbnd]
                  rw [dot_bstrides a.shape a.strides oshape idx ls halen hca hilen
                      hbnd hls,
                    dot_bstrides b.shape b.strides oshape idx rs hblen hcb hilen
                      hbnd hrs]
                  rw [sendEff_gpu, sendEff_gpu]
            · -- direct kernel: all shapes equal, no custom strides
              rename_i hus
              rw [hosh] at hus
              have hus2 : a.custom_strides = false ∧ b.custom_strides = false ∧
                  equalShapes3 a.shape b.shape oshape = true := by
                simp only [Bool.or_eq_true, not_or, Bool.not_eq_true,
                  Bool.not_eq_true', Bool.not_eq_false] at hus
                exact ⟨hus.1.1, hus.1.2, hus.2⟩
              obtain ⟨hac, hbc, he3⟩ := hus2
              have he : a.shape = b.shape ∧ a.shape = oshape := by
                unfold equalShapes3 at he3
                simp only [Bool.and_eq_true, beq_iff_eq] at he3
                exact he3
              have hbs : b.shape = oshape := he.1 ▸ he.2
              obtain ⟨hst, -⟩ := Prod.mk.inj heq3
              have hfin : res =
                  { mkArray oshape dtp with
                      cpu_dirty := false
                      gpu_dirty := true
                      gpu := fun x =>
                        if x < (mkArray oshape dtp).len then
                          directKernelVal (fun x y => w (x + y)) (sendEff a).gpu
                            (sendEff b).gpu x
                        else (mkArray oshape dtp).gpu x } := by
                rw [← hresv, ← hst]
              subst hfin
              rw [loadEff_cpu _ rfl rfl]
              show (if dot idx (jsStrides oshape) < (mkArray oshape dtp).len then
                  directKernelVal (fun x y => w (x + y)) (sendEff a).gpu
                    (sendEff b).gpu (dot idx (jsStrides oshape))
                else (0 : Int)) = _
              rw [holen2, if_pos hxlt]
              unfold directKernelVal
              have hra : resolveIdx a.shape oshape idx = idx := by
                unfold resolveIdx
                rw [he.2, Nat.sub_self, List.drop_zero]
                exact zip_resolve_self oshape idx hilen hbnd
              have hrb : resolveIdx b.shape oshape idx = idx := by
                unfold resolveIdx
                rw [hbs, Nat.sub_self, List.drop_zero]
                exact zip_resolve_self oshape idx hilen hbnd
              rw [hra, hrb, hacont hac, hbcont hbc, he.2, hbs]
              rw [sendEff_gpu, sendEff_gpu]
      · -- the run threw: contradiction with the ok result
        exact Except.noConfusion hres

/-- Witness for C1 (amended): adding a 3-element `i32` array and a
1-element (broadcast) `i32` array, then loading, observed at multi-index
`[2]` of the result. -/
theorem claim_C1_add_broadcast_witness :
    (loadEff demoRes).cpu (dot [2] demoRes.strides) =
      wrapI32 (demoA.val (dot (resolveIdx demoA.shape [3] [2]) demoA.strides) +
        demoB.val (dot (resolveIdx demoB.shape [3] [2]) demoB.strides)) :=
  claim_C1_add_broadcast wrapI32 DType.i32 demoA demoB demoRes [3] [2]
    (Or.inl ⟨rfl, rfl⟩) rfl rfl
    ⟨by decide, by decide, by decide, fun _ => by decide⟩
    ⟨by decide, by decide, by decide, fun _ => by decide⟩
    (by rfl) (by rfl) (by rfl)
    (by
      intro k hk
      have hk1 : k = 0 := Nat.lt_one_iff.mp hk
      subst hk1
      decide)

/-! ### Synchronous rejection of custom strides -/

/-- Claim C9: every elementwise operation (`_vector_op` for the four
arithmetic operators, `_func2` for the two-argument math functions,
`where`) called with an explicitly supplied output whose strides are
custom, and every reduction (`_reduce_op`/`_reduce_func`, which share the
same check) called on a custom-strided input, throws synchronously with no
dispatch submitted and every operand returned in exactly its original
state — no dirty flag, host buffer or device buffer is modified. -/
theorem claim_C9_custom_strides_rejected :
    (∀ (f : Int → Int → Int) (a b out : NDA), out.custom_strides = true →
        vectorOpRun f a b out = ((a, b, out), some ())) ∧
      (∀ (f : Int → Int → Int) (a b out : NDA), out.custom_strides = true →
        func2Run f a b out = ((a, b, out), some ())) ∧
      (∀ c t f out : NDA, out.custom_strides = true →
        whereRun c t f out = ((c, t, f, out), some ())) ∧
      (∀ arg : NDA, arg.custom_strides = true → reduceRun arg = (arg, some ())) := by
  refine ⟨?v, ?f2, ?w, ?r⟩
  · intro f a b out h
    unfold vectorOpRun
    cases promoteType (some a.dtype) (some b.dtype) <;> simp [h]
  · intro f a b out h
    unfold func2Run
    cases promoteType (some a.dtype) (some b.dtype) <;> simp [h]
  · intro c t f out h
    unfold whereRun
    simp [h]
  · intro arg h
    unfold reduceRun
    simp [h]

/-- Witness for C9 at concrete arrays with a custom-strided output
respectively input. -/
theorem claim_C9_custom_strides_rejected_witness :
    vectorOpRun (fun x y => x + y) (mkArray [4] .f32) (mkArray [4] .f32)
        demoCustom = ((mkArray [4] .f32, mkArray [4] .f32, demoCustom), some ()) ∧
      func2Run (fun x y => x * y) (mkArray [4] .f32) (mkArray [4] .f32)
        demoCustom = ((mkArray [4] .f32, mkArray [4] .f32, demoCustom), some ()) ∧
      whereRun (mkArray [4] .f32) (mkArray [4] .f32) (mkArray [4] .f32)
        demoCustom =
        ((mkArray [4] .f32, mkArray [4] .f32, mkArray [4] .f32, demoCustom),
          some ()) ∧
      reduceRun demoCustom = (demoCustom, some ()) :=
  ⟨claim_C9_custom_strides_rejected.1 _ _ _ demoCustom rfl,
    claim_C9_custom_strides_rejected.2.1 _ _ _ demoCustom rfl,
    claim_C9_custom_strides_rejected.2.2.1 _ _ _ demoCustom rfl,
    claim_C9_custom_strides_rejected.2.2.2 demoCustom rfl⟩

/-! ### The PRNG jump bug -/

/-- Claim C8 fails on the code: evaluating the shader's `jump` routine at
stream `k = 1` of a concrete 4-stream state shows (1) it differs from the
intended jump of the claim/spec, and (2) its result for stream 1 changes
when only stream **3**'s initial state changes — because the inner loop
variable shadows the stream parameter, the routine XOR-accumulates and
advances streams 0..3 instead of stream 1 — while (3) the intended
routine's result for stream 1 is unaffected by stream 3. -/
theorem claim_C8_jump_shadowing :
    jump_code jumpState0 1 ≠ jump_spec jumpState0 1 ∧
      (jump_code jumpState0 1).getD 1 (0, 0, 0, 0) ≠
        (jump_code jumpState1 1).getD 1 (0, 0, 0, 0) ∧
      (jump_spec jumpState0 1).getD 1 (0, 0, 0, 0) =
        (jump_spec jumpState1 1).getD 1 (0, 0, 0, 0) :=
  ⟨by decide, by decide, by decide⟩

end GpuArray
